import Mathlib

/-!
Verification of `scripts/discover_nano_services.py`.

The script is embedded shallowly: Python strings become `List Char`
(Python strings are sequences of code points), fallible code returns
`Except`, and the HTTP layer is abstracted as a function from the query
string to the response the server would give.  Python's `list.sort` is a
stable sort; any two stable sorts agree on every list for a total
preorder key, so it is modeled by `List.insertionSort`, which is stable
in exactly the same sense and is structurally recursive (hence
kernel-computable).
-/

namespace NanoDiscovery

/-- Python strings, modeled as lists of characters. -/
abbrev Str := List Char

/-! ## Python string primitives -/

/-- The characters stripped by Python's `str.strip()` (ASCII part). -/
def isPyWs (c : Char) : Bool :=
  c = ' ' || c = '\t' || c = '\n' || c = '\r' || c = '\x0b' || c = '\x0c'

/-- Remove trailing whitespace (second half of `str.strip()`). -/
def trimEnd (s : Str) : Str := (s.reverse.dropWhile isPyWs).reverse

/-- Python's `str.strip()`. -/
def pyStrip (s : Str) : Str := trimEnd (s.dropWhile isPyWs)

/-- Python's `str.split(sep)` for a one-character separator `sep`:
no collapsing of adjacent separators, `"".split(sep) == [""]`. -/
def splitOnChar (sep : Char) : Str → List Str
  | [] => [[]]
  | c :: cs =>
    if c = sep then [] :: splitOnChar sep cs
    else
      match splitOnChar sep cs with
      | [] => [[c]]
      | p :: ps => (c :: p) :: ps

/-- Python's `sep.join(parts)` for a one-character separator. -/
def joinChar (sep : Char) : List Str → Str
  | [] => []
  | [p] => p
  | p :: ps => p ++ sep :: joinChar sep ps

/-- `row.split("|")`. -/
def splitPipe (s : Str) : List Str := splitOnChar '|' s

/-- `"|".join(parts)`. -/
def joinPipe (ps : List Str) : Str := joinChar '|' ps

/-- Python's `str.replace(a, b)` for one-character `a` and `b`. -/
def pyReplaceChar (s : Str) (a b : Char) : Str := s.map fun c => if c = a then b else c

/-- Python's `str.replace(",", "")`: delete every comma. -/
def pyRemoveCommas (s : Str) : Str := s.filter fun c => c ≠ ','

/-- Python's `str.lower()` (ASCII part). -/
def pyLower (s : Str) : Str := s.map Char.toLower

/-- Python's `str.rstrip("/")`: drop every trailing slash. -/
def rstripSlash (s : Str) : Str := (s.reverse.dropWhile (fun c => c = '/')).reverse

/-- The pattern `pat` occurs in `s` starting at index `i`. -/
def occursAt (pat s : Str) (i : Nat) : Prop := pat <+: s.drop i

/-- Scan of `str.find`: first index at or after `i` where `pat` matches. -/
def pyFindAux (pat : Str) : Str → Nat → Option Nat
  | s, i =>
    if pat.isPrefixOf s then some i
    else
      match s with
      | [] => none
      | _ :: rest => pyFindAux pat rest (i + 1)

/-- Python's `s.find(pat)`, as an `Option`. -/
def pyFindOpt (s pat : Str) : Option Nat := pyFindAux pat s 0

/-- Python's `s.find(pat)`: index of the first occurrence, `-1` if absent. -/
def pyFind (s pat : Str) : Int :=
  match pyFindOpt s pat with
  | some n => (n : Int)
  | none => -1

/-- Python's slice `s[:i]`, including the negative-index convention. -/
def pySliceTo (s : Str) (i : Int) : Str :=
  if i < 0 then s.take ((s.length : Int) + i).toNat else s.take i.toNat

/-- Python's slice `s[i:]`, including the negative-index convention. -/
def pySliceFrom (s : Str) (i : Int) : Str :=
  if i < 0 then s.drop ((s.length : Int) + i).toNat else s.drop i.toNat

/-- Python's slice `s[a:b]` for nonnegative bounds. -/
def pySliceNat (s : Str) (a b : Nat) : Str := (s.drop a).take (b - a)

/-! ## Decimal integers: `str(n)` and `int(s)` -/

/-- One decimal digit as a character. -/
def digitChar : Nat → Char
  | 0 => '0' | 1 => '1' | 2 => '2' | 3 => '3' | 4 => '4'
  | 5 => '5' | 6 => '6' | 7 => '7' | 8 => '8' | _ => '9'

/-- Numeric value of a decimal digit character. -/
def digitVal (c : Char) : Nat := c.toNat - 48

/-- Value of a string of decimal digits. -/
def digitsToNat (ds : Str) : Nat := ds.foldl (fun a c => 10 * a + digitVal c) 0

/-- Decimal rendering with explicit fuel (the fuel is always sufficient,
keeping the definition structurally recursive and kernel-computable). -/
def natStrAux : Nat → Nat → Str
  | 0, _ => []
  | fuel + 1, n =>
    if n < 10 then [digitChar n]
    else natStrAux fuel (n / 10) ++ [digitChar (n % 10)]

/-- Python's `str(n)` for a nonnegative integer. -/
def natStr (n : Nat) : Str := natStrAux (n + 1) n

/-- Tail of the digit grammar of Python's `int`: digits with single
underscores allowed between digits. -/
def pyDigitsRestOk : Str → Bool
  | [] => true
  | c :: cs =>
    if c = '_' then
      match cs with
      | [] => false
      | d :: ds => if d = '_' then false else d.isDigit && pyDigitsRestOk ds
    else c.isDigit && pyDigitsRestOk cs

/-- Digit part of Python's `int` grammar: nonempty, starts with a digit. -/
def pyDigitsOk : Str → Bool
  | [] => false
  | c :: cs => c.isDigit && pyDigitsRestOk cs

/-- Drop the underscores of a digit group. -/
def stripUnderscores (s : Str) : Str := s.filter fun c => c ≠ '_'

/-- Python's `int(s)`: surrounding whitespace ignored, optional sign,
decimal digits with optional single underscores between digits;
`none` models the `ValueError`. -/
def pyToInt (s : Str) : Option Int :=
  match pyStrip s with
  | [] => none
  | c :: r =>
    if c = '+' then
      if pyDigitsOk r then some ((digitsToNat (stripUnderscores r) : Int)) else none
    else if c = '-' then
      if pyDigitsOk r then some (-(digitsToNat (stripUnderscores r) : Int)) else none
    else
      if pyDigitsOk (c :: r) then some ((digitsToNat (stripUnderscores (c :: r)) : Int))
      else none

/-! ## The URL regular expression

`re` pattern `https://github\.com/[\w\-\.]+/[\w\-\.]+`: the two character
classes contain no `/`, so greedy matching needs no backtracking and a
match at a position is exactly: the literal scheme-and-host part, then a
maximal nonempty run of word characters, a slash, and a second maximal
nonempty run. -/

/-- Characters of the class `[\w\-\.]` (ASCII part of `\w`). -/
def isUrlChar (c : Char) : Bool := c.isAlphanum || c = '_' || c = '-' || c = '.'

/-- The literal part of the URL pattern. -/
def urlLit : Str := "https://github.com/".toList

/-- Try to match the URL pattern at the start of `s`; on success return
the matched text and the remaining suffix. -/
def matchUrlAt (s : Str) : Option (Str × Str) :=
  if urlLit.isPrefixOf s then
    let r1 := s.drop urlLit.length
    let seg1 := r1.takeWhile isUrlChar
    match r1.drop seg1.length with
    | c :: r3 =>
      if c = '/' then
        let seg2 := r3.takeWhile isUrlChar
        if seg1.isEmpty || seg2.isEmpty then none
        else some (urlLit ++ seg1 ++ '/' :: seg2, r3.drop seg2.length)
      else none
    | [] => none
  else none

/-- `re.search` for the URL pattern: leftmost match. -/
def firstGithubUrl : Str → Option Str
  | [] => none
  | c :: cs =>
    match matchUrlAt (c :: cs) with
    | some (m, _) => some m
    | none => firstGithubUrl cs

/-- `re.finditer` for the URL pattern, with explicit fuel (one unit per
consumed character; the initial fuel `s.length` is always sufficient). -/
def findAllUrlsAux : Nat → Str → List Str
  | 0, _ => []
  | _ + 1, [] => []
  | fuel + 1, c :: cs =>
    match matchUrlAt (c :: cs) with
    | some (m, rest) => m :: findAllUrlsAux fuel rest
    | none => findAllUrlsAux fuel cs

/-- All (non-overlapping, left-to-right) matches of the URL pattern. -/
def findAllUrls (s : Str) : List Str := findAllUrlsAux s.length s

/-! ## Data model -/

/-- The fields of a GitHub search-result item that the script reads. -/
structure Repo where
  name : Str
  full_name : Str
  html_url : Str
  description : Option Str
  stargazers_count : Nat
  fork : Bool
  archived : Bool
deriving DecidableEq

/-- An HTTP response of the search endpoint: status code and the parsed
`items` array. -/
structure HttpResponse where
  status : Nat
  items : List Repo
deriving DecidableEq

def MARKER_START : Str := "<!-- NANO_LIST_START -->".toList

def MARKER_END : Str := "<!-- NANO_LIST_END -->".toList

/-- The fixed search queries of the script. -/
def SEARCH_QUERIES : List Str :=
  [ "nano in:name topic:ai", "nano in:name topic:machine-learning",
    "nano in:name topic:llm", "nano in:name topic:deep-learning",
    "nano in:name topic:gpt", "nano in:name topic:chatbot",
    "nano in:name topic:nlp", "nano in:name topic:agent",
    "nano in:name topic:neural-network", "nano in:name topic:transformer",
    "nanoGPT", "nanochat", "nanobot", "nanobrowser", "nanocoder",
    "nanoflow", "nanotron" ].map String.toList

def headerRow : Str := "| Name | Description | Stars |".toList

def separatorRow : Str := "|------|-------------|-------|".toList

/-- `table_header`: the literal `"| Name | Description | Stars |\n|------|-------------|-------|\n"`. -/
def tableHeader : Str := headerRow ++ '\n' :: separatorRow ++ ['\n']

/-- `url.lower().rstrip("/")`: the deduplication key. -/
def canonicalUrl (u : Str) : Str := rstripSlash (pyLower u)

/-! ## The script's functions -/

/-- `search_repos`: 403 is a soft failure with an empty result; any other
status that `raise_for_status` rejects (4xx/5xx) raises. -/
def search_repos (resp : HttpResponse) : Except String (List Repo) :=
  if resp.status = 403 then .ok []
  else if 400 ≤ resp.status ∧ resp.status < 600 then .error "HTTPError"
  else .ok resp.items

/-- `parse_existing_entries`: canonicalized URLs of every pattern match in
the marked section, as a set (modeled as a duplicate-free list). -/
def parse_existing_entries (content : Str) : List Str :=
  match pyFindOpt content MARKER_START, pyFindOpt content MARKER_END with
  | some s, some e =>
    let sec := pySliceNat content s e
    (findAllUrls sec).foldl
      (fun acc u => let cu := canonicalUrl u; if cu ∈ acc then acc else acc ++ [cu]) []
  | _, _ => []

/-- A parsed table row, and the format string of `build_table_row`. -/
structure RowData where
  name : Str
  url : Str
  desc : Str
  stars : Nat
deriving DecidableEq

/-- The f-string `f"| [{name}]({url}) | {description} | {stars} |"`. -/
def renderRow (d : RowData) : Str :=
  "| [".toList ++ d.name ++ "](".toList ++ d.url ++ ") | ".toList ++
    d.desc ++ " | ".toList ++ natStr d.stars ++ " |".toList

/-- `(repo["description"] or "").replace("|", "-").strip()` followed by
the 100-character truncation with ellipsis. -/
def sanitizeDescription (d : Option Str) : Str :=
  let desc := pyStrip (pyReplaceChar (d.getD []) '|' '-')
  if 100 < desc.length then desc.take 97 ++ "...".toList else desc

/-- The row data a repository is rendered from. -/
def rowOfRepo (r : Repo) : RowData :=
  ⟨r.name, r.html_url, sanitizeDescription r.description, r.stargazers_count⟩

/-- `build_table_row`. -/
def build_table_row (r : Repo) : Str := renderRow (rowOfRepo r)

/-- The per-line step of `parse_table_rows`: strip, skip header and
separator lines and lines not starting with `|`. -/
def keepRowLine (line : Str) : Option Str :=
  let l := pyStrip line
  if ("| Name".toList).isPrefixOf l then none
  else if ("|---".toList).isPrefixOf l then none
  else if ['|'].isPrefixOf l then some l
  else none

/-- `parse_table_rows`. -/
def parse_table_rows (content : Str) : List Str :=
  match pyFindOpt content MARKER_START, pyFindOpt content MARKER_END with
  | some s, some e =>
    let sec := pyStrip (pySliceNat content (s + MARKER_START.length) e)
    (splitOnChar '\n' sec).filterMap keepRowLine
  | _, _ => []

/-- `extract_stars_from_row`. -/
def extract_stars_from_row (row : Str) : Int :=
  let parts := splitPipe row
  if 4 ≤ parts.length then
    match pyToInt (pyRemoveCommas (pyStrip (parts.getD 3 []))) with
    | some n => n
    | none => 0
  else 0

/-- Python dictionary lookup (`k in d` and `d[k]`), on an association list
updated in place by `dictSet`, so the first hit is the current binding. -/
def pyGet {β : Type} : List (Str × β) → Str → Option β
  | [], _ => none
  | (k', v) :: rest, k => if k' = k then some v else pyGet rest k

/-- `k in d`. -/
def hasKey {β : Type} (d : List (Str × β)) (k : Str) : Bool :=
  d.any fun p => decide (p.1 = k)

/-- Python dictionary assignment `d[k] = v`: overwrite in place, else
append (insertion order preserved, as in Python 3.7+). -/
def dictSet {β : Type} (d : List (Str × β)) (k : Str) (v : β) : List (Str × β) :=
  if hasKey d k then d.map (fun p => if p.1 = k then (k, v) else p) else d ++ [(k, v)]

/-- `update_row_stars`. -/
def update_row_stars (row : Str) (repos_by_url : List (Str × Repo)) : Str :=
  match firstGithubUrl row with
  | none => row
  | some u =>
    match pyGet repos_by_url (canonicalUrl u) with
    | none => row
    | some repo =>
      let parts := splitPipe row
      if 5 ≤ parts.length then
        joinPipe (parts.set 3 (' ' :: natStr repo.stargazers_count ++ [' ']))
      else row

/-- The aggregation step of the query loop:
`if full_name not in all_repos: all_repos[full_name] = repo`. -/
def insertRepos (acc : List (Str × Repo)) (repos : List Repo) : List (Str × Repo) :=
  repos.foldl
    (fun a r =>
      let fn := pyLower r.full_name
      if hasKey a fn then a else a ++ [(fn, r)]) acc

/-- The query loop of `main`: one `search_repos` call per query, results
merged first-occurrence-wins by lowercased full name; an HTTP error
aborts the whole run. -/
def runQueries (fetch : Str → HttpResponse) : List Str → List (Str × Repo) →
    Except String (List (Str × Repo))
  | [], acc => .ok acc
  | q :: qs, acc =>
    match search_repos (fetch q) with
    | .error e => .error e
    | .ok repos => runQueries fetch qs (insertRepos acc repos)

/-- The exclusion predicate of the filter loop (the three `continue`s). -/
def excludedRepo (urls : List Str) (r : Repo) : Bool :=
  r.fork || r.archived || decide (canonicalUrl r.html_url ∈ urls)

/-- One iteration of the filter loop of `main`. -/
def partitionStep (urls : List Str) (acc : List Repo × List (Str × Repo))
    (item : Str × Repo) : List Repo × List (Str × Repo) :=
  let r := item.2
  let byUrl := dictSet acc.2 (canonicalUrl r.html_url) r
  if excludedRepo urls r then (acc.1, byUrl) else (acc.1 ++ [r], byUrl)

/-- The filter loop of `main`: build `new_repos` and `repos_by_url`. -/
def partitionRepos (items : List (Str × Repo)) (urls : List Str) :
    List Repo × List (Str × Repo) :=
  items.foldl (partitionStep urls) ([], [])

/-- `new_repos.sort(key=lambda r: r["stargazers_count"], reverse=True)`. -/
def starsDescRepo (a b : Repo) : Prop := b.stargazers_count ≤ a.stargazers_count

instance : DecidableRel starsDescRepo := fun a b =>
  inferInstanceAs (Decidable (b.stargazers_count ≤ a.stargazers_count))

/-- `all_rows.sort(key=extract_stars_from_row, reverse=True)`. -/
def rowStarsDesc (a b : Str) : Prop :=
  extract_stars_from_row b ≤ extract_stars_from_row a

instance : DecidableRel rowStarsDesc := fun a b =>
  inferInstanceAs (Decidable (extract_stars_from_row b ≤ extract_stars_from_row a))

instance : IsTotal Str rowStarsDesc := ⟨fun _ _ => Int.le_total _ _⟩

instance : IsTrans Str rowStarsDesc := ⟨fun _ _ _ hab hbc => le_trans hbc hab⟩

instance : IsTotal Repo starsDescRepo := ⟨fun _ _ => Nat.le_total _ _⟩

instance : IsTrans Repo starsDescRepo := ⟨fun _ _ _ hab hbc => le_trans hbc hab⟩

/-- `f"{MARKER_START}\n{table_header}{table_body}\n{MARKER_END}"`. -/
def newSectionStr (all_rows : List Str) : Str :=
  MARKER_START ++ '\n' :: tableHeader ++ joinChar '\n' all_rows ++
    '\n' :: MARKER_END

/-- What a run computes: the rewritten document, the newly added
repositories, and the final row list of the section. -/
structure MainResult where
  newReadme : Str
  newRepos : List Repo
  allRows : List Str
deriving DecidableEq

/-- The part of `main` after the query loop: filter, refresh, merge, sort
and splice, given the aggregated `all_repos` mapping. -/
def mainFromRepos (readme : Str) (all_repos : List (Str × Repo)) : MainResult :=
  let existing_urls := parse_existing_entries readme
  let existing_rows := parse_table_rows readme
  let pr := partitionRepos all_repos existing_urls
  let new_repos := List.insertionSort starsDescRepo pr.1
  let updated_rows := existing_rows.map fun row => update_row_stars row pr.2
  let new_rows := new_repos.map build_table_row
  let all_rows := List.insertionSort rowStarsDesc (updated_rows ++ new_rows)
  let start_idx : Int := pyFind readme MARKER_START
  let end_idx : Int := pyFind readme MARKER_END + MARKER_END.length
  let new_readme :=
    pySliceTo readme start_idx ++ newSectionStr all_rows ++ pySliceFrom readme end_idx
  ⟨new_readme, new_repos, all_rows⟩

/-- `main`: read, parse, query, filter, refresh, merge, sort, splice. -/
def mainModel (readme : Str) (fetch : Str → HttpResponse) :
    Except String MainResult :=
  match runQueries fetch SEARCH_QUERIES [] with
  | .error e => .error e
  | .ok all_repos => .ok (mainFromRepos readme all_repos)

/-- The final row list of a run (empty if the run aborts before writing). -/
def mainRows (readme : Str) (fetch : Str → HttpResponse) : List Str :=
  match mainModel readme fetch with
  | .ok r => r.allRows
  | .error _ => []

/-- The newly added repositories of a run (empty if the run aborts). -/
def mainNewRepos (readme : Str) (fetch : Str → HttpResponse) : List Repo :=
  match mainModel readme fetch with
  | .ok r => r.newRepos
  | .error _ => []

/-- The document content on disk after a run: rewritten on success, left
unchanged when the run aborts (the exception fires before the write). -/
def finalReadme (readme : Str) (fetch : Str → HttpResponse) : Str :=
  match mainModel readme fetch with
  | .ok r => r.newReadme
  | .error _ => readme

/-- No query response carries a fatal status: whatever is in 4xx/5xx must
be the soft 403 case. -/
def fetchOk (fetch : Str → HttpResponse) : Prop :=
  ∀ q ∈ SEARCH_QUERIES,
    400 ≤ (fetch q).status → (fetch q).status < 600 → (fetch q).status = 403

instance (fetch : Str → HttpResponse) : Decidable (fetchOk fetch) := by
  unfold fetchOk
  infer_instance

/-! ## Concrete inputs used by witnesses and counterexamples -/

/-- A response function whose every answer is empty and successful. -/
def emptyFetch : Str → HttpResponse := fun _ => ⟨200, []⟩

/-- A fork with plenty of stars. -/
def c1repoFork : Repo :=
  ⟨"x".toList, "a/x".toList, "https://github.com/a/x".toList, none, 2000, true, false⟩

def c1items : List (Str × Repo) := [("a/x".toList, c1repoFork)]

def c3row : Str := "| [x](https://github.com/a/b) | d | 5 |".toList

def c3repo : Repo :=
  ⟨"b".toList, "a/b".toList, "https://github.com/a/b".toList, none, 600, false, false⟩

def c3map : List (Str × Repo) := [("https://github.com/a/b".toList, c3repo)]

/-- One rate-limited query, everything else a server error. -/
def c4fetch : Str → HttpResponse :=
  fun q => if q = "a".toList then ⟨403, []⟩ else ⟨500, []⟩

/-- A 101-character description whose strip drops below the truncation
threshold: 98 letters and three trailing spaces. -/
def c5desc : Str := List.replicate 98 'a' ++ "   ".toList

/-- A 101-character description with no surrounding whitespace. -/
def c5long : Str := List.replicate 101 'b'

def c9row : Str := "| a | b | 1,234 |".toList

def c6readme : Str := "A\n<!-- NANO_LIST_START -->\nmid\n<!-- NANO_LIST_END -->\nB".toList

def c10readme : Str := "no markers here".toList

/-- A document whose section already lists the same repository twice. -/
def c7readme : Str :=
  ("A\n<!-- NANO_LIST_START -->\n| Name | Description | Stars |\n" ++
   "|------|-------------|-------|\n" ++
   "| [foo](https://github.com/a/foo) | d | 5 |\n" ++
   "| [foo](https://github.com/a/foo) | d | 5 |\n" ++
   "<!-- NANO_LIST_END -->\nB").toList

def c7repo : Repo :=
  ⟨"bar".toList, "b/bar".toList, "https://github.com/b/bar".toList,
    some ("d".toList), 700, false, false⟩

def c7fetch : Str → HttpResponse :=
  fun q => if q = "nanoGPT".toList then ⟨200, [c7repo]⟩ else ⟨200, []⟩

/-- A document with an empty, well-formed marked table. -/
def c7wreadme : Str :=
  ("X\n<!-- NANO_LIST_START -->\n| Name | Description | Stars |\n" ++
   "|------|-------------|-------|\n<!-- NANO_LIST_END -->\nY").toList

/-! ## Well-formedness used by the amended idempotence claim -/

/-- Characters allowed in a rendered description cell: no newline (rows
are lines), no colon (keeps URL matching confined to the link), no `<`
(keeps the markers unique) and no pipe (keeps the cell one field). -/
def goodDescChar (c : Char) : Bool :=
  !(c = '\n' || c = ':' || c = '<' || c = '|')

/-- The same for a raw repository description; a pipe is allowed because
`build_table_row` replaces it. -/
def repoDescChar (c : Char) : Bool := !(c = '\n' || c = ':' || c = '<')

/-- The URL is exactly one full match of the URL pattern. -/
def wfUrlB (u : Str) : Bool := decide (matchUrlAt u = some (u, []))

/-- A well-formed table row: word-character name, well-formed URL,
well-behaved description. -/
def wfRowData (d : RowData) : Bool :=
  d.name.all isUrlChar && wfUrlB d.url && d.desc.all goodDescChar

/-- A well-formed repository record. -/
def wfRepoB (r : Repo) : Bool :=
  r.name.all isUrlChar && wfUrlB r.html_url &&
    (r.description.getD []).all repoDescChar

/-- Every repository item of every query response. -/
def fetchedRepos (fetch : Str → HttpResponse) : List Repo :=
  (SEARCH_QUERIES.map fun q => (fetch q).items).flatten

/-- `"\n".join` of the rendered rows. -/
def tableBody (ds : List RowData) : Str := joinChar '\n' (ds.map renderRow)

/-- The whole bounded section as generated from row data. -/
def docSection (ds : List RowData) : Str := newSectionStr (ds.map renderRow)

/-- Such a document up to (and excluding) the end marker. -/
def docBeforeEnd (pre : Str) (ds : List RowData) : Str :=
  pre ++ MARKER_START ++ '\n' :: tableHeader ++ tableBody ds ++ ['\n']

/-- The star refresh at the row-data level. -/
def refreshStars (byUrl : List (Str × Repo)) (d : RowData) : RowData :=
  match pyGet byUrl (canonicalUrl d.url) with
  | some r => { d with stars := r.stargazers_count }
  | none => d

/-- The three pipe-delimited fields of a rendered row. -/
def rowField1 (d : RowData) : Str :=
  ' ' :: '[' :: (d.name ++ ']' :: '(' :: (d.url ++ [')', ' ']))

def rowField2 (d : RowData) : Str := ' ' :: (d.desc ++ [' '])

def rowField3 (d : RowData) : Str := ' ' :: (natStr d.stars ++ [' '])

/-- Descending star order on row data. -/
def starsDescRow (a b : RowData) : Prop := b.stars ≤ a.stars

instance : DecidableRel starsDescRow := fun a b =>
  inferInstanceAs (Decidable (b.stars ≤ a.stars))

instance : IsTotal RowData starsDescRow := ⟨fun _ _ => Nat.le_total _ _⟩

instance : IsTrans RowData starsDescRow := ⟨fun _ _ _ hab hbc => le_trans hbc hab⟩

/-- The row data of the bounded section after one run: existing rows with
refreshed stars, then the rows of the surviving repositories, all sorted
by stars descending. -/
def runRows (ds : List RowData) (all_repos : List (Str × Repo))
    (urls : List Str) : List RowData :=
  List.insertionSort starsDescRow
    (ds.map (refreshStars (partitionRepos all_repos urls).2) ++
      (List.insertionSort starsDescRepo
        (partitionRepos all_repos urls).1).map rowOfRepo)

/-! ## Concrete inputs for the idempotence claim -/

/-- A document whose only mention of `a/foo` sits in the star column. -/
def c8readme : Str :=
  ("A\n<!-- NANO_LIST_START -->\n| Name | Description | Stars |\n" ++
   "|------|-------------|-------|\n" ++
   "| x | y | https://github.com/a/foo | 7 |\n" ++
   "<!-- NANO_LIST_END -->\nZ").toList

def c8repo : Repo :=
  ⟨"foo".toList, "a/foo".toList, "https://github.com/a/foo".toList,
    some ("desc".toList), 600, false, false⟩

def c8fetch : Str → HttpResponse :=
  fun q => if q = "nanoGPT".toList then ⟨200, [c8repo]⟩ else ⟨200, []⟩

/-- Witness inputs for the amended idempotence theorem. -/
def c8wpre : Str := "Intro\n".toList

def c8wpost : Str := "\nOutro\n".toList

def c8wrow : RowData :=
  ⟨"old".toList, "https://github.com/c/old".toList, "kept".toList, 50⟩

def c8wrepo : Repo :=
  ⟨"bar".toList, "b/bar".toList, "https://github.com/b/bar".toList,
    some ("a new tool".toList), 700, false, false⟩

def c8wfetch : Str → HttpResponse :=
  fun q => if q = "nanochat".toList then ⟨200, [c8wrepo]⟩ else ⟨200, []⟩

/-! ## Lemmas: splitting and joining -/

theorem splitOnChar_ne_nil (sep : Char) (s : Str) : splitOnChar sep s ≠ [] := by
  induction s with
  | nil => simp [splitOnChar]
  | cons c cs ih =>
    by_cases h : c = sep
    · simp [splitOnChar, h]
    · simp only [splitOnChar, if_neg h]
      cases hs : splitOnChar sep cs with
      | nil => simp
      | cons p ps => simp

theorem not_mem_of_mem_splitOnChar {sep : Char} {s p : Str}
    (hp : p ∈ splitOnChar sep s) : sep ∉ p := by
  induction s generalizing p with
  | nil =>
    simp only [splitOnChar, List.mem_singleton] at hp
    subst hp; simp
  | cons c cs ih =>
    by_cases h : c = sep
    · simp only [splitOnChar, if_pos h, List.mem_cons] at hp
      rcases hp with hp | hp
      · subst hp; simp
      · exact ih hp
    · simp only [splitOnChar, if_neg h] at hp
      cases hs : splitOnChar sep cs with
      | nil => exact absurd hs (splitOnChar_ne_nil _ _)
      | cons q qs =>
        rw [hs] at hp
        rcases List.mem_cons.mp hp with hp | hp
        · subst hp
          intro hmem
          rcases List.mem_cons.mp hmem with hc | hq
          · exact h hc.symm
          · exact ih (hs ▸ List.mem_cons_self q qs) hq
        · exact ih (hs ▸ List.mem_cons_of_mem _ hp)

theorem splitOnChar_sepFree {sep : Char} {a : Str} (h : sep ∉ a) :
    splitOnChar sep a = [a] := by
  induction a with
  | nil => simp [splitOnChar]
  | cons c cs ih =>
    have hc : ¬ c = sep := fun hc => h (hc ▸ List.mem_cons_self c cs)
    have hcs : sep ∉ cs := fun hm => h (List.mem_cons_of_mem _ hm)
    simp only [splitOnChar, if_neg hc, ih hcs]

theorem splitOnChar_append_cons {sep : Char} {a : Str} (h : sep ∉ a) (b : Str) :
    splitOnChar sep (a ++ sep :: b) = a :: splitOnChar sep b := by
  induction a with
  | nil => simp [splitOnChar]
  | cons c cs ih =>
    have hc : ¬ c = sep := fun hc => h (hc ▸ List.mem_cons_self c cs)
    have hcs : sep ∉ cs := fun hm => h (List.mem_cons_of_mem _ hm)
    simp only [List.cons_append, splitOnChar, if_neg hc, List.append_eq, ih hcs]

theorem splitOnChar_joinChar {sep : Char} :
    ∀ {parts : List Str}, parts ≠ [] → (∀ p ∈ parts, sep ∉ p) →
      splitOnChar sep (joinChar sep parts) = parts
  | [], h, _ => absurd rfl h
  | [p], _, hps => by
    simp only [joinChar]
    exact splitOnChar_sepFree (hps p (List.mem_singleton_self p))
  | p :: q :: rest, _, hps => by
    have h1 : sep ∉ p := hps p (List.mem_cons_self _ _)
    have h2 : ∀ x ∈ q :: rest, sep ∉ x := fun x hx => hps x (List.mem_cons_of_mem _ hx)
    show splitOnChar sep (p ++ sep :: joinChar sep (q :: rest)) = _
    rw [splitOnChar_append_cons h1, splitOnChar_joinChar (List.cons_ne_nil q rest) h2]

theorem joinChar_splitOnChar (sep : Char) (s : Str) :
    joinChar sep (splitOnChar sep s) = s := by
  induction s with
  | nil => simp [splitOnChar, joinChar]
  | cons c cs ih =>
    by_cases h : c = sep
    · subst h
      simp only [splitOnChar, if_pos rfl]
      cases hs : splitOnChar c cs with
      | nil => exact absurd hs (splitOnChar_ne_nil _ _)
      | cons p ps =>
        rw [hs] at ih
        show [] ++ c :: joinChar c (p :: ps) = c :: cs
        rw [List.nil_append, ih]
    · simp only [splitOnChar, if_neg h]
      cases hs : splitOnChar sep cs with
      | nil => exact absurd hs (splitOnChar_ne_nil _ _)
      | cons p ps =>
        rw [hs] at ih
        cases ps with
        | nil => show c :: p = c :: cs; rw [← ih]; rfl
        | cons q qs =>
          show (c :: p) ++ sep :: joinChar sep (q :: qs) = c :: cs
          rw [List.cons_append, ← ih]; rfl

/-! ## Lemmas: stripping -/

theorem trimEnd_concat_ws {c : Char} (h : isPyWs c = true) (s : Str) :
    trimEnd (s ++ [c]) = trimEnd s := by
  simp [trimEnd, List.dropWhile_cons, h]

theorem trimEnd_concat_keep {c : Char} (h : isPyWs c = false) (s : Str) :
    trimEnd (s ++ [c]) = s ++ [c] := by
  simp [trimEnd, List.dropWhile_cons, h]

theorem pyStrip_cons_ws {c : Char} (h : isPyWs c = true) (s : Str) :
    pyStrip (c :: s) = pyStrip s := by
  simp [pyStrip, List.dropWhile_cons, h]

theorem pyStrip_concat_ws {c : Char} (h : isPyWs c = true) (s : Str) :
    pyStrip (s ++ [c]) = pyStrip s := by
  unfold pyStrip
  rw [List.dropWhile_append]
  by_cases hd : (List.dropWhile isPyWs s).isEmpty
  · rw [if_pos hd, List.isEmpty_iff.mp hd]
    simp [List.dropWhile_cons, h, trimEnd]
  · rw [if_neg hd]
    exact trimEnd_concat_ws h _

/-! ## Lemmas: substring search -/

theorem pyFindAux_eq_some_iff (pat : Str) : ∀ (s : Str) (i j : Nat),
    pyFindAux pat s i = some j ↔
      ∃ k, pat <+: s.drop k ∧ j = i + k ∧ ∀ m < k, ¬ pat <+: s.drop m := by
  intro s
  induction s with
  | nil =>
    intro i j
    rw [pyFindAux]
    by_cases hp : pat.isPrefixOf ([] : Str)
    · rw [if_pos hp]
      have hpre : pat <+: ([] : Str) := List.isPrefixOf_iff_prefix.mp hp
      constructor
      · intro h
        cases h
        exact ⟨0, by simpa using hpre, by simp, by omega⟩
      · rintro ⟨k, _, hj, hm⟩
        have hk : k = 0 := by
          by_contra hk
          exact hm 0 (Nat.pos_of_ne_zero hk) (by simpa using hpre)
        subst hk; simp [hj]
    · rw [if_neg hp]
      constructor
      · intro h; cases h
      · rintro ⟨k, hk, _, _⟩
        simp only [List.drop_nil] at hk
        exact absurd (List.isPrefixOf_iff_prefix.mpr hk) hp
  | cons c cs ih =>
    intro i j
    rw [pyFindAux]
    by_cases hp : pat.isPrefixOf (c :: cs)
    · rw [if_pos hp]
      have hpre : pat <+: (c :: cs) := List.isPrefixOf_iff_prefix.mp hp
      constructor
      · intro h
        cases h
        exact ⟨0, by simpa using hpre, by simp, by omega⟩
      · rintro ⟨k, _, hj, hm⟩
        have hk : k = 0 := by
          by_contra hk
          exact hm 0 (Nat.pos_of_ne_zero hk) (by simpa using hpre)
        subst hk; simp [hj]
    · rw [if_neg hp]
      have hnpre : ¬ pat <+: (c :: cs) := fun h => hp (List.isPrefixOf_iff_prefix.mpr h)
      rw [ih (i + 1) j]
      constructor
      · rintro ⟨k, hk, hj, hm⟩
        refine ⟨k + 1, by simpa using hk, by omega, ?_⟩
        intro m hmlt
        cases m with
        | zero => simpa using hnpre
        | succ m' => exact fun hbad => hm m' (by omega) (by simpa using hbad)
      · rintro ⟨k, hk, hj, hm⟩
        cases k with
        | zero => exact absurd (by simpa using hk) hnpre
        | succ k' =>
          refine ⟨k', by simpa using hk, by omega, ?_⟩
          intro m hmlt hbad
          exact hm (m + 1) (by omega) (by simpa using hbad)

theorem pyFindOpt_eq_some_iff {s pat : Str} {i : Nat} :
    pyFindOpt s pat = some i ↔ occursAt pat s i ∧ ∀ j < i, ¬ occursAt pat s j := by
  unfold pyFindOpt occursAt
  rw [pyFindAux_eq_some_iff]
  constructor
  · rintro ⟨k, hk, hik, hm⟩
    exact ⟨by simpa [hik] using hk, by simpa [hik] using hm⟩
  · rintro ⟨h1, h2⟩
    exact ⟨i, h1, by omega, h2⟩

theorem pyFindOpt_eq_none_iff {s pat : Str} :
    pyFindOpt s pat = none ↔ ∀ i, ¬ occursAt pat s i := by
  constructor
  · intro h i hocc
    classical
    have hex : ∃ k, pat <+: s.drop k := ⟨i, hocc⟩
    have hsome : pyFindOpt s pat = some (Nat.find hex) := by
      unfold pyFindOpt
      rw [pyFindAux_eq_some_iff]
      exact ⟨Nat.find hex, Nat.find_spec hex, by omega,
        fun m hm => Nat.find_min hex hm⟩
    rw [h] at hsome; cases hsome
  · intro h
    cases hopt : pyFindOpt s pat with
    | none => rfl
    | some j =>
      have := (pyFindOpt_eq_some_iff.mp hopt).1
      exact absurd this (h j)

/-! ## Lemmas: decimal rendering and parsing -/

/-- The ten decimal digit characters. -/
def decDigits : Str := ['0', '1', '2', '3', '4', '5', '6', '7', '8', '9']

theorem digitChar_mem_decDigits (n : Nat) : digitChar n ∈ decDigits := by
  unfold digitChar
  split <;> decide

theorem natStrAux_subset_decDigits :
    ∀ (f n : Nat) (c : Char), c ∈ natStrAux f n → c ∈ decDigits := by
  intro f
  induction f with
  | zero => intro n c h; simp [natStrAux] at h
  | succ f ih =>
    intro n c h
    rw [natStrAux] at h
    by_cases hn : n < 10
    · rw [if_pos hn] at h
      rcases List.mem_singleton.mp h with rfl
      exact digitChar_mem_decDigits n
    · rw [if_neg hn] at h
      rcases List.mem_append.mp h with h | h
      · exact ih _ _ h
      · rcases List.mem_singleton.mp h with rfl
        exact digitChar_mem_decDigits _

theorem natStr_subset_decDigits {n : Nat} {c : Char} (h : c ∈ natStr n) :
    c ∈ decDigits := natStrAux_subset_decDigits _ _ _ h

theorem natStrAux_ne_nil (f n : Nat) (h : 0 < f) : natStrAux f n ≠ [] := by
  cases f with
  | zero => omega
  | succ f =>
    rw [natStrAux]
    by_cases hn : n < 10
    · simp [if_pos hn]
    · simp [if_neg hn]

theorem natStr_ne_nil (n : Nat) : natStr n ≠ [] := natStrAux_ne_nil _ _ (by omega)

theorem digitVal_digitChar {n : Nat} (h : n < 10) : digitVal (digitChar n) = n := by
  interval_cases n <;> decide

theorem digitsToNat_concat (ds : Str) (c : Char) :
    digitsToNat (ds ++ [c]) = 10 * digitsToNat ds + digitVal c := by
  simp [digitsToNat, List.foldl_append]

theorem natStrAux_val : ∀ (f n : Nat), n < f → digitsToNat (natStrAux f n) = n := by
  intro f
  induction f with
  | zero => omega
  | succ f ih =>
    intro n hn
    rw [natStrAux]
    by_cases h10 : n < 10
    · rw [if_pos h10]
      show digitsToNat ([] ++ [digitChar n]) = n
      rw [digitsToNat_concat, digitVal_digitChar h10]
      simp [digitsToNat]
    · rw [if_neg h10, digitsToNat_concat, digitVal_digitChar (Nat.mod_lt _ (by omega))]
      have hdiv : n / 10 < n := Nat.div_lt_self (by omega) (by omega)
      rw [ih _ (by omega)]
      omega

theorem natStr_val (n : Nat) : digitsToNat (natStr n) = n :=
  natStrAux_val _ _ (Nat.lt_succ_self n)

/-- Everything one ever needs about a decimal digit character. -/
theorem decDigit_facts :
    ∀ c ∈ decDigits, c.isDigit = true ∧ isPyWs c = false ∧ isUrlChar c = true ∧
      c ≠ '|' ∧ c ≠ '_' ∧ c ≠ '+' ∧ c ≠ '-' ∧ c ≠ ',' ∧ c ≠ '\n' ∧ c ≠ ':' ∧
      c ≠ '<' ∧ c ≠ '/' := by
  decide

theorem pyDigitsRestOk_cons {c : Char} (h : ¬ c = '_') (cs : Str) :
    pyDigitsRestOk (c :: cs) = (c.isDigit && pyDigitsRestOk cs) := by
  rw [pyDigitsRestOk.eq_def]
  dsimp only
  rw [if_neg h]

theorem pyDigitsRestOk_of_digits :
    ∀ {s : Str}, (∀ c ∈ s, c ∈ decDigits) → pyDigitsRestOk s = true := by
  intro s
  induction s with
  | nil => intro _; rfl
  | cons c cs ih =>
    intro h
    have hc := decDigit_facts c (h c (List.mem_cons_self _ _))
    rw [pyDigitsRestOk_cons hc.2.2.2.2.1, hc.1,
      ih fun d hd => h d (List.mem_cons_of_mem _ hd)]
    rfl

theorem pyDigitsOk_of_digits {s : Str} (hne : s ≠ [])
    (h : ∀ c ∈ s, c ∈ decDigits) : pyDigitsOk s = true := by
  cases s with
  | nil => exact absurd rfl hne
  | cons c cs =>
    rw [pyDigitsOk]
    rw [(decDigit_facts c (h c (List.mem_cons_self _ _))).1,
      pyDigitsRestOk_of_digits fun d hd => h d (List.mem_cons_of_mem _ hd)]
    rfl

theorem stripUnderscores_of_digits {s : Str} (h : ∀ c ∈ s, c ∈ decDigits) :
    stripUnderscores s = s := by
  unfold stripUnderscores
  apply List.filter_eq_self.mpr
  intro c hc
  exact decide_eq_true ((decDigit_facts c (h c hc)).2.2.2.2.1)

theorem trimEnd_eq_self {s : Str}
    (h : ∀ c, s.getLast? = some c → isPyWs c = false) : trimEnd s = s := by
  unfold trimEnd
  cases hrev : s.reverse with
  | nil =>
    have hs : s = [] := List.reverse_eq_nil_iff.mp hrev
    subst hs; rfl
  | cons d ds =>
    have hd : s.getLast? = some d := by
      rw [← List.head?_reverse, hrev]; rfl
    rw [List.dropWhile_cons, h d hd]
    show (d :: ds).reverse = s
    rw [← hrev, List.reverse_reverse]

theorem pyStrip_eq_self {s : Str}
    (hh : ∀ c, s.head? = some c → isPyWs c = false)
    (hl : ∀ c, s.getLast? = some c → isPyWs c = false) : pyStrip s = s := by
  unfold pyStrip
  have hdw : s.dropWhile isPyWs = s := by
    cases s with
    | nil => rfl
    | cons c cs => rw [List.dropWhile_cons, hh c rfl]; simp
  rw [hdw]
  exact trimEnd_eq_self hl

theorem mem_of_getLast?_eq {s : Str} {c : Char} (hc : s.getLast? = some c) :
    c ∈ s := by
  rw [← List.head?_reverse] at hc
  exact List.mem_reverse.mp (List.mem_of_mem_head? hc)

theorem pyStrip_of_digits {s : Str} (h : ∀ c ∈ s, c ∈ decDigits) :
    pyStrip s = s := by
  refine pyStrip_eq_self (fun c hc => ?_) (fun c hc => ?_)
  · exact (decDigit_facts c (h c (List.mem_of_mem_head? hc))).2.1
  · exact (decDigit_facts c (h c (mem_of_getLast?_eq hc))).2.1

theorem pyToInt_of_digits {s : Str} (hne : s ≠ [])
    (hd : ∀ c ∈ s, c ∈ decDigits) : pyToInt s = some ((digitsToNat s : Int)) := by
  unfold pyToInt
  rw [pyStrip_of_digits hd]
  cases s with
  | nil => exact absurd rfl hne
  | cons c cs =>
    have hc := decDigit_facts c (hd c (List.mem_cons_self _ _))
    dsimp only
    rw [if_neg hc.2.2.2.2.2.1, if_neg hc.2.2.2.2.2.2.1,
      if_pos (pyDigitsOk_of_digits (List.cons_ne_nil _ _) hd),
      stripUnderscores_of_digits hd]

theorem pyToInt_natStr (n : Nat) : pyToInt (natStr n) = some (n : Int) := by
  rw [pyToInt_of_digits (natStr_ne_nil n) fun c hc => natStr_subset_decDigits hc,
    natStr_val]

/-! ## Lemmas: dictionaries -/

theorem pyGet_map_overwrite {β : Type} (k : Str) (v : β) :
    ∀ d : List (Str × β), hasKey d k = true →
      pyGet (d.map fun p => if p.1 = k then (k, v) else p) k = some v := by
  intro d
  induction d with
  | nil => intro h; simp [hasKey] at h
  | cons q qs ih =>
    intro h
    rw [List.map_cons]
    by_cases hq : q.1 = k
    · rw [if_pos hq, pyGet, if_pos rfl]
    · rw [if_neg hq, pyGet, if_neg hq]
      apply ih
      unfold hasKey at h ⊢
      rw [List.any_cons, decide_eq_false hq, Bool.false_or] at h
      exact h

theorem pyGet_append_new {β : Type} (k : Str) (v : β) :
    ∀ d : List (Str × β), hasKey d k = false →
      pyGet (d ++ [(k, v)]) k = some v := by
  intro d
  induction d with
  | nil => intro _; simp [pyGet]
  | cons q qs ih =>
    intro h
    unfold hasKey at h
    rw [List.any_cons] at h
    have hq : ¬ q.1 = k := by
      intro hqk
      rw [decide_eq_true hqk, Bool.true_or] at h
      cases h
    rw [List.cons_append, pyGet, if_neg hq]
    apply ih
    unfold hasKey
    rw [decide_eq_false hq, Bool.false_or] at h
    exact h

theorem pyGet_dictSet_self {β : Type} (d : List (Str × β)) (k : Str) (v : β) :
    pyGet (dictSet d k v) k = some v := by
  unfold dictSet
  by_cases h : hasKey d k = true
  · rw [if_pos h]
    exact pyGet_map_overwrite k v d h
  · rw [if_neg h]
    exact pyGet_append_new k v d (Bool.not_eq_true _ ▸ h)

theorem pyGet_dictSet_other {β : Type} (d : List (Str × β)) {k k' : Str}
    (h : ¬ k = k') (v : β) : pyGet (dictSet d k v) k' = pyGet d k' := by
  unfold dictSet
  have hmap : ∀ d' : List (Str × β),
      pyGet (d'.map fun p => if p.1 = k then (k, v) else p) k' = pyGet d' k' := by
    intro d'
    induction d' with
    | nil => rfl
    | cons q qs ih =>
      rw [List.map_cons]
      by_cases hq : q.1 = k
      · rw [if_pos hq, pyGet, pyGet, if_neg h, if_neg (hq ▸ h)]
        exact ih
      · rw [if_neg hq, pyGet, pyGet]
        by_cases hq' : q.1 = k'
        · rw [if_pos hq', if_pos hq']
        · rw [if_neg hq', if_neg hq']
          exact ih
  have happ : ∀ d' : List (Str × β),
      pyGet (d' ++ [(k, v)]) k' = pyGet d' k' := by
    intro d'
    induction d' with
    | nil => simp [pyGet, h]
    | cons q qs ih =>
      rw [List.cons_append, pyGet, pyGet]
      by_cases hq' : q.1 = k'
      · rw [if_pos hq', if_pos hq']
      · rw [if_neg hq', if_neg hq']
        exact ih
  by_cases hk : hasKey d k = true
  · rw [if_pos hk]; exact hmap d
  · rw [if_neg hk]; exact happ d

theorem pyGet_dictSet_isSome_mono {β : Type} (d : List (Str × β)) (k k' : Str)
    (v : β) (h : (pyGet d k').isSome) : (pyGet (dictSet d k v) k').isSome := by
  by_cases hk : k = k'
  · subst hk; rw [pyGet_dictSet_self]; rfl
  · rw [pyGet_dictSet_other d hk]; exact h

/-! ## Lemmas: the filter loop -/

theorem partition_fst_mem (urls : List Str) :
    ∀ (items : List (Str × Repo)) (acc : List Repo × List (Str × Repo)) (r : Repo),
      r ∈ (items.foldl (partitionStep urls) acc).1 ↔
        r ∈ acc.1 ∨ ∃ p ∈ items, p.2 = r ∧ excludedRepo urls r = false := by
  intro items
  induction items with
  | nil =>
    intro acc r
    rw [List.foldl_nil]
    constructor
    · exact fun h => Or.inl h
    · rintro (h | ⟨p, hp, _⟩)
      · exact h
      · exact absurd hp (List.not_mem_nil p)
  | cons hd tl ih =>
    intro acc r
    rw [List.foldl_cons, ih]
    unfold partitionStep
    by_cases he : excludedRepo urls hd.2 = true
    · rw [if_pos he]
      constructor
      · rintro (h | h)
        · exact Or.inl h
        · exact Or.inr (by
            rcases h with ⟨p, hp, hpr, hex⟩
            exact ⟨p, List.mem_cons_of_mem _ hp, hpr, hex⟩)
      · rintro (h | ⟨p, hp, hpr, hex⟩)
        · exact Or.inl h
        · rcases List.mem_cons.mp hp with rfl | hp
          · rw [hpr] at he; rw [he] at hex; cases hex
          · exact Or.inr ⟨p, hp, hpr, hex⟩
    · rw [if_neg he]
      have he' : excludedRepo urls hd.2 = false := by
        cases hb : excludedRepo urls hd.2
        · rfl
        · exact absurd hb he
      constructor
      · rintro (h | h)
        · rcases List.mem_append.mp h with h | h
          · exact Or.inl h
          · rcases List.mem_singleton.mp h with rfl
            exact Or.inr ⟨hd, List.mem_cons_self _ _, rfl, he'⟩
        · rcases h with ⟨p, hp, hpr, hex⟩
          exact Or.inr ⟨p, List.mem_cons_of_mem _ hp, hpr, hex⟩
      · rintro (h | ⟨p, hp, hpr, hex⟩)
        · exact Or.inl (List.mem_append.mpr (Or.inl h))
        · rcases List.mem_cons.mp hp with rfl | hp
          · exact Or.inl (List.mem_append.mpr (Or.inr (by simp [hpr])))
          · exact Or.inr ⟨p, hp, hpr, hex⟩

theorem partition_byUrl_isSome (urls : List Str) :
    ∀ (items : List (Str × Repo)) (acc : List Repo × List (Str × Repo))
      (p : Str × Repo), p ∈ items →
      (pyGet (items.foldl (partitionStep urls) acc).2
        (canonicalUrl p.2.html_url)).isSome := by
  have hmono : ∀ (items : List (Str × Repo)) (acc : List Repo × List (Str × Repo))
      (k : Str), (pyGet acc.2 k).isSome →
      (pyGet (items.foldl (partitionStep urls) acc).2 k).isSome := by
    intro items
    induction items with
    | nil => intro acc k h; exact h
    | cons hd tl ih =>
      intro acc k h
      rw [List.foldl_cons]
      apply ih
      unfold partitionStep
      by_cases he : excludedRepo urls hd.2 = true
      · rw [if_pos he]
        exact pyGet_dictSet_isSome_mono _ _ _ _ h
      · rw [if_neg he]
        exact pyGet_dictSet_isSome_mono _ _ _ _ h
  intro items
  induction items with
  | nil => intro acc p hp; exact absurd hp (List.not_mem_nil p)
  | cons hd tl ih =>
    intro acc p hp
    rcases List.mem_cons.mp hp with rfl | hp
    · rw [List.foldl_cons]
      apply hmono
      unfold partitionStep
      by_cases he : excludedRepo urls p.2 = true
      · rw [if_pos he]
        show (pyGet (dictSet acc.2 (canonicalUrl p.2.html_url) p.2) _).isSome
        rw [pyGet_dictSet_self]; rfl
      · rw [if_neg he]
        show (pyGet (dictSet acc.2 (canonicalUrl p.2.html_url) p.2) _).isSome
        rw [pyGet_dictSet_self]; rfl
    · rw [List.foldl_cons]
      exact ih _ p hp

theorem partition_byUrl_get (urls : List Str) :
    ∀ (items : List (Str × Repo)) (acc : List Repo × List (Str × Repo))
      (k : Str) (r : Repo),
      pyGet (items.foldl (partitionStep urls) acc).2 k = some r →
      pyGet acc.2 k = some r ∨
        ∃ p ∈ items, p.2 = r ∧ canonicalUrl r.html_url = k := by
  intro items
  induction items with
  | nil => intro acc k r h; exact Or.inl h
  | cons hd tl ih =>
    intro acc k r h
    rw [List.foldl_cons] at h
    rcases ih _ k r h with h' | ⟨p, hp, hpr, hpk⟩
    · have hstep : (partitionStep urls acc hd).2 =
          dictSet acc.2 (canonicalUrl hd.2.html_url) hd.2 := by
        unfold partitionStep
        by_cases he : excludedRepo urls hd.2 = true
        · rw [if_pos he]
        · rw [if_neg he]
      rw [hstep] at h'
      by_cases hk : canonicalUrl hd.2.html_url = k
      · subst hk
        rw [pyGet_dictSet_self] at h'
        cases h'
        exact Or.inr ⟨hd, List.mem_cons_self _ _, rfl, rfl⟩
      · rw [pyGet_dictSet_other _ hk] at h'
        exact Or.inl h'
    · exact Or.inr ⟨p, List.mem_cons_of_mem _ hp, hpr, hpk⟩

/-! ## Helper lemmas about the pipeline -/

theorem mainModel_ok_inv {readme : Str} {fetch : Str → HttpResponse}
    {res : MainResult} (h : mainModel readme fetch = .ok res) :
    ∃ all_repos, runQueries fetch SEARCH_QUERIES [] = .ok all_repos ∧
      res = mainFromRepos readme all_repos := by
  unfold mainModel at h
  cases hq : runQueries fetch SEARCH_QUERIES [] with
  | error e => rw [hq] at h; cases h
  | ok l =>
    rw [hq] at h
    cases h
    exact ⟨l, rfl, rfl⟩

theorem pyStrip_subset (s : Str) : pyStrip s ⊆ s := by
  intro c hc
  unfold pyStrip trimEnd at hc
  have h1 : c ∈ List.dropWhile isPyWs s := by
    have := (List.dropWhile_sublist (l := ((List.dropWhile isPyWs s).reverse))
      isPyWs).subset (List.mem_reverse.mp hc)
    exact List.mem_reverse.mp this
  exact (List.dropWhile_sublist isPyWs).subset h1

theorem not_mem_pyReplaceChar (s : Str) {a b : Char} (h : b ≠ a) :
    a ∉ pyReplaceChar s a b := by
  intro hmem
  unfold pyReplaceChar at hmem
  rcases List.mem_map.mp hmem with ⟨x, _, hx⟩
  by_cases hxa : x = a
  · rw [if_pos hxa] at hx; exact h hx
  · rw [if_neg hxa] at hx; exact hxa hx

theorem splitPipe_parts_pipeFree {row p : Str} (hp : p ∈ splitPipe row) :
    '|' ∉ p := not_mem_of_mem_splitOnChar hp

theorem splitPipe_joinPipe_set3 (row : Str) {x : Str} (hx : '|' ∉ x) :
    splitPipe (joinPipe ((splitPipe row).set 3 x)) = (splitPipe row).set 3 x := by
  apply splitOnChar_joinChar
  · intro habs
    have := List.length_set (splitPipe row) 3 x
    rw [habs] at this
    exact splitOnChar_ne_nil '|' row (List.length_eq_zero.mp this.symm)
  · intro p hp
    rcases List.mem_or_eq_of_mem_set hp with hp | rfl
    · exact splitPipe_parts_pipeFree hp
    · exact hx

theorem natStr_pipeFree (n : Nat) : '|' ∉ natStr n := by
  intro h
  exact (decDigit_facts _ (natStr_subset_decDigits h)).2.2.2.1 rfl

/-! ## Claim C1 -/

/-- C1: for every repository in the aggregated search-result mapping, it is
excluded from `new_repos` iff it is a fork, is archived, or its canonical
URL is in the existing-URL set; either way its canonical URL is a key of
the star-refresh mapping `repos_by_url`. -/
theorem partition_new_iff (items : List (Str × Repo)) (urls : List Str)
    (p : Str × Repo) (hp : p ∈ items) :
    (p.2 ∉ (partitionRepos items urls).1 ↔
      (p.2.fork = true ∨ p.2.archived = true ∨ canonicalUrl p.2.html_url ∈ urls)) ∧
    (pyGet (partitionRepos items urls).2 (canonicalUrl p.2.html_url)).isSome := by
  constructor
  · have h1 : p.2 ∈ (partitionRepos items urls).1 ↔
        excludedRepo urls p.2 = false := by
      unfold partitionRepos
      rw [partition_fst_mem]
      constructor
      · rintro (h | ⟨q, _, _, hex⟩)
        · exact absurd h (List.not_mem_nil _)
        · exact hex
      · intro hex
        exact Or.inr ⟨p, hp, rfl, hex⟩
    have h2 : excludedRepo urls p.2 = true ↔
        (p.2.fork = true ∨ p.2.archived = true ∨
          canonicalUrl p.2.html_url ∈ urls) := by
      unfold excludedRepo
      simp [Bool.or_eq_true, decide_eq_true_eq, or_assoc]
    calc p.2 ∉ (partitionRepos items urls).1
        ↔ ¬ excludedRepo urls p.2 = false := not_congr h1
      _ ↔ excludedRepo urls p.2 = true := by simp
      _ ↔ _ := h2
  · unfold partitionRepos
    exact partition_byUrl_isSome urls items ([], []) p hp

/-- Witness for C1 at a concrete fork. -/
theorem partition_new_iff_witness :
    (c1repoFork ∉ (partitionRepos c1items []).1 ↔
      (c1repoFork.fork = true ∨ c1repoFork.archived = true ∨
        canonicalUrl c1repoFork.html_url ∈ ([] : List Str))) ∧
    (pyGet (partitionRepos c1items []).2 (canonicalUrl c1repoFork.html_url)).isSome :=
  partition_new_iff c1items [] ("a/x".toList, c1repoFork) (by decide)

/-! ## Claim C2 -/

/-- C2: the final row sequence (refreshed existing rows merged with new
rows, which is exactly what `newSectionStr` joins into the written
section) is non-increasing in the star value `extract_stars_from_row`
extracts from each row. -/
theorem mainRows_sorted (readme : Str) (fetch : Str → HttpResponse) :
    List.Pairwise rowStarsDesc (mainRows readme fetch) := by
  unfold mainRows
  cases hm : mainModel readme fetch with
  | error e => exact List.Pairwise.nil
  | ok res =>
    rcases mainModel_ok_inv hm with ⟨l, _, rfl⟩
    exact List.sorted_insertionSort rowStarsDesc _

/-! ## Claim C4 -/

/-- C4: a 403 response makes `search_repos` return the empty list and the
query loop continue with the remaining queries unchanged; any other 4xx
or 5xx status makes `search_repos` raise, aborting the whole run. -/
theorem search_repos_error_handling (fetch : Str → HttpResponse) (q : Str)
    (qs : List Str) (acc : List (Str × Repo))
    (h4 : 400 ≤ (fetch q).status) (h6 : (fetch q).status < 600) :
    ((fetch q).status = 403 →
      search_repos (fetch q) = .ok [] ∧
      runQueries fetch (q :: qs) acc = runQueries fetch qs acc) ∧
    ((fetch q).status ≠ 403 →
      search_repos (fetch q) = .error "HTTPError" ∧
      runQueries fetch (q :: qs) acc = .error "HTTPError") := by
  constructor
  · intro h403
    have hs : search_repos (fetch q) = .ok [] := by
      unfold search_repos
      rw [if_pos h403]
    refine ⟨hs, ?_⟩
    rw [runQueries, hs]
    rfl
  · intro h403
    have hs : search_repos (fetch q) = .error "HTTPError" := by
      unfold search_repos
      rw [if_neg h403, if_pos ⟨h4, h6⟩]
    refine ⟨hs, ?_⟩
    rw [runQueries, hs]

/-- Witness for C4: the 403 query is skipped, the 500 query aborts. -/
theorem search_repos_error_handling_witness :
    (search_repos (c4fetch ("a".toList)) = .ok [] ∧
      runQueries c4fetch ("a".toList :: ["b".toList]) [] =
        runQueries c4fetch ["b".toList] []) ∧
    (search_repos (c4fetch ("b".toList)) = .error "HTTPError" ∧
      runQueries c4fetch ("b".toList :: []) [] = .error "HTTPError") :=
  ⟨(search_repos_error_handling c4fetch ("a".toList) ["b".toList] []
      (by decide) (by decide)).1 (by decide),
   (search_repos_error_handling c4fetch ("b".toList) [] []
      (by decide) (by decide)).2 (by decide)⟩

/-! ## Claim C9 -/

/-- C9: `extract_stars_from_row` is total (it is a Lean function, so it
never raises); with fewer than 4 pipe-delimited parts it returns 0, with
an unparseable fourth part (stripped, commas removed) it returns 0, and
otherwise it returns the parsed integer. -/
theorem extract_stars_spec (row : Str) :
    ((splitPipe row).length < 4 → extract_stars_from_row row = 0) ∧
    (∀ h4 : 4 ≤ (splitPipe row).length,
      (pyToInt (pyRemoveCommas (pyStrip ((splitPipe row).get ⟨3, by omega⟩))) = none →
        extract_stars_from_row row = 0) ∧
      ∀ n, pyToInt (pyRemoveCommas (pyStrip ((splitPipe row).get ⟨3, by omega⟩))) = some n →
        extract_stars_from_row row = n) := by
  unfold extract_stars_from_row
  constructor
  · intro h
    rw [if_neg (by omega)]
  · intro h4
    rw [if_pos h4]
    have hgd : (splitPipe row).getD 3 [] = (splitPipe row).get ⟨3, by omega⟩ := by
      rw [List.getD_eq_getElem _ _ (by omega), List.get_eq_getElem]
    rw [hgd]
    constructor
    · intro hnone; rw [hnone]
    · intro n hsome; rw [hsome]

/-- Witness for C9 on a row with a comma-grouped star count. -/
theorem extract_stars_spec_witness : extract_stars_from_row c9row = 1234 :=
  ((extract_stars_spec c9row).2 (by decide)).2 1234 (by decide)

/-! ## Claim C5 -/

/-- C5 counterexample: a 101-character description with trailing spaces is
longer than 100 characters, yet the rendered description is its stripped
98-character form, not 97 characters plus an ellipsis. -/
theorem sanitize_truncation_cex :
    100 < c5desc.length ∧
    sanitizeDescription (some c5desc) = List.replicate 98 'a' ∧
    (sanitizeDescription (some c5desc)).length ≠ 100 := by
  refine ⟨by decide, by decide, by decide⟩

/-- C5 (amended): the rendered description never exceeds 100 characters
and contains no pipe; when the description after pipe-replacement and
whitespace-stripping is longer than 100 characters, it becomes its first
97 characters plus a 3-character ellipsis. -/
theorem sanitizeDescription_spec (d : Option Str) :
    (sanitizeDescription d).length ≤ 100 ∧
    '|' ∉ sanitizeDescription d ∧
    (100 < (pyStrip (pyReplaceChar (d.getD []) '|' '-')).length →
      sanitizeDescription d =
        (pyStrip (pyReplaceChar (d.getD []) '|' '-')).take 97 ++ "...".toList) := by
  unfold sanitizeDescription
  by_cases h : 100 < (pyStrip (pyReplaceChar (d.getD []) '|' '-')).length
  · rw [if_pos h]
    refine ⟨?_, ?_, fun _ => rfl⟩
    · rw [List.length_append, List.length_take]
      have : (("...".toList : Str)).length = 3 := by decide
      omega
    · intro hmem
      rcases List.mem_append.mp hmem with hmem | hmem
      · exact not_mem_pyReplaceChar (d.getD []) (by decide)
          (pyStrip_subset _ (List.mem_of_mem_take hmem))
      · revert hmem; decide
  · rw [if_neg h]
    refine ⟨by omega, ?_, fun hc => absurd hc h⟩
    intro hmem
    exact not_mem_pyReplaceChar (d.getD []) (by decide) (pyStrip_subset _ hmem)

/-- Witness for C5's truncation clause at a 101-character description. -/
theorem sanitizeDescription_spec_witness :
    sanitizeDescription (some c5long) =
      (pyStrip (pyReplaceChar c5long '|' '-')).take 97 ++ "...".toList :=
  (sanitizeDescription_spec (some c5long)).2.2 (by decide)

/-! ## Claim C3 -/

/-- C3: `update_row_stars` only ever changes the fourth pipe-delimited
field (the star column): the part count is preserved and every other
field, in particular the name-link field (index 1) and the description
field (index 2), is byte-identical before and after. -/
theorem update_row_stars_frame (row : Str) (m : List (Str × Repo)) :
    (splitPipe (update_row_stars row m)).length = (splitPipe row).length ∧
    ∀ i, i ≠ 3 →
      (splitPipe (update_row_stars row m))[i]? = (splitPipe row)[i]? := by
  unfold update_row_stars
  cases hf : firstGithubUrl row with
  | none => dsimp only; exact ⟨rfl, fun i _ => rfl⟩
  | some u =>
    dsimp only
    cases hg : pyGet m (canonicalUrl u) with
    | none => dsimp only; exact ⟨rfl, fun i _ => rfl⟩
    | some repo =>
      dsimp only
      by_cases hlen : 5 ≤ (splitPipe row).length
      · rw [if_pos hlen]
        have hx : '|' ∉ ' ' :: natStr repo.stargazers_count ++ [' '] := by
          intro hmem
          rcases List.mem_cons.mp hmem with h | h
          · cases h
          · rcases List.mem_append.mp h with h | h
            · exact natStr_pipeFree _ h
            · rcases List.mem_singleton.mp h with h
              cases h
        rw [splitPipe_joinPipe_set3 row hx]
        exact ⟨List.length_set _ _ _,
          fun i hi => List.getElem?_set_ne (fun h => hi h.symm)⟩
      · rw [if_neg hlen]
        exact ⟨rfl, fun i _ => rfl⟩

/-- Witness for C3: name and description fields unchanged on a refreshed row. -/
theorem update_row_stars_frame_witness :
    (splitPipe (update_row_stars c3row c3map))[1]? = (splitPipe c3row)[1]? ∧
    (splitPipe (update_row_stars c3row c3map))[2]? = (splitPipe c3row)[2]? :=
  ⟨(update_row_stars_frame c3row c3map).2 1 (by decide),
   (update_row_stars_frame c3row c3map).2 2 (by decide)⟩

/-! ## Helper lemmas: slices, occurrences, successful runs -/

theorem pySliceTo_nat (s : Str) (n : Nat) : pySliceTo s (n : Int) = s.take n := by
  unfold pySliceTo
  rw [if_neg (by omega), Int.toNat_natCast]

theorem pySliceFrom_nat (s : Str) (n : Nat) : pySliceFrom s (n : Int) = s.drop n := by
  unfold pySliceFrom
  rw [if_neg (by omega), Int.toNat_natCast]

theorem pyFind_of_opt_some {s pat : Str} {i : Nat}
    (h : pyFindOpt s pat = some i) : pyFind s pat = i := by
  unfold pyFind
  rw [h]

theorem occursAt_append_self (a pat b : Str) :
    occursAt pat (a ++ pat ++ b) a.length := by
  unfold occursAt
  rw [List.append_assoc, List.drop_left]
  exact List.prefix_append pat b

theorem occursAt_iff_infix {pat t : Str} :
    (∃ i, occursAt pat t i) ↔ pat <:+: t := by
  constructor
  · rintro ⟨i, hi⟩
    unfold occursAt at hi
    rcases hi with ⟨rest, hrest⟩
    exact ⟨t.take i, rest, by rw [List.append_assoc, hrest, List.take_append_drop]⟩
  · rintro ⟨a, b, rfl⟩
    exact ⟨a.length, occursAt_append_self a pat b⟩

theorem pyFindOpt_none_iff_not_infix {s pat : Str} :
    pyFindOpt s pat = none ↔ ¬ pat <:+: s := by
  rw [pyFindOpt_eq_none_iff, ← occursAt_iff_infix]
  push_neg
  rfl

theorem marker_start_infix_newSection (rows : List Str) :
    MARKER_START <:+: newSectionStr rows :=
  ⟨[], '\n' :: tableHeader ++ joinChar '\n' rows ++ '\n' :: MARKER_END, by
    unfold newSectionStr
    simp [List.append_assoc]⟩

theorem marker_end_infix_newSection (rows : List Str) :
    MARKER_END <:+: newSectionStr rows :=
  ⟨MARKER_START ++ '\n' :: tableHeader ++ joinChar '\n' rows ++ ['\n'], [], by
    unfold newSectionStr
    simp [List.append_assoc]⟩

theorem runQueries_isOk (fetch : Str → HttpResponse) (h : fetchOk fetch) :
    ∀ qs, (∀ q ∈ qs, q ∈ SEARCH_QUERIES) → ∀ acc,
      ∃ l, runQueries fetch qs acc = .ok l := by
  intro qs
  induction qs with
  | nil => intro _ acc; exact ⟨acc, rfl⟩
  | cons q qs' ih =>
    intro hsub acc
    have hq := h q (hsub q (List.mem_cons_self _ _))
    have hok : ∃ repos, search_repos (fetch q) = .ok repos := by
      unfold search_repos
      by_cases h403 : (fetch q).status = 403
      · rw [if_pos h403]; exact ⟨[], rfl⟩
      · rw [if_neg h403]
        by_cases hr : 400 ≤ (fetch q).status ∧ (fetch q).status < 600
        · exact absurd (hq hr.1 hr.2) h403
        · rw [if_neg hr]; exact ⟨_, rfl⟩
    rcases hok with ⟨repos, hrep⟩
    rw [runQueries, hrep]
    exact ih (fun x hx => hsub x (List.mem_cons_of_mem _ hx)) _

theorem mainModel_isOk (readme : Str) (fetch : Str → HttpResponse)
    (h : fetchOk fetch) : ∃ res, mainModel readme fetch = .ok res := by
  rcases runQueries_isOk fetch h SEARCH_QUERIES (fun _ hq => hq) [] with ⟨l, hl⟩
  exact ⟨mainFromRepos readme l, by unfold mainModel; rw [hl]⟩

/-! ## Claim C6 -/

/-- C6: when both markers are present, the rewrite replaces exactly the span
from the first occurrence of the start marker through the end of the first
occurrence of the end marker with the reconstructed section; every byte
before and after that span is unchanged.  The `occursAt` conjuncts express
that `s` and `e` are genuinely the first occurrences. -/
theorem splice_frame (readme : Str) (fetch : Str → HttpResponse) (s e : Nat)
    (hfetch : fetchOk fetch)
    (hs : pyFindOpt readme MARKER_START = some s)
    (he : pyFindOpt readme MARKER_END = some e) :
    occursAt MARKER_START readme s ∧ (∀ j < s, ¬ occursAt MARKER_START readme j) ∧
    occursAt MARKER_END readme e ∧ (∀ j < e, ¬ occursAt MARKER_END readme j) ∧
    ∃ res, mainModel readme fetch = .ok res ∧
      res.newReadme =
        readme.take s ++ newSectionStr res.allRows ++
          readme.drop (e + MARKER_END.length) := by
  obtain ⟨h1, h2⟩ := pyFindOpt_eq_some_iff.mp hs
  obtain ⟨h3, h4⟩ := pyFindOpt_eq_some_iff.mp he
  refine ⟨h1, h2, h3, h4, ?_⟩
  rcases mainModel_isOk readme fetch hfetch with ⟨res, hres⟩
  refine ⟨res, hres, ?_⟩
  rcases mainModel_ok_inv hres with ⟨l, _, rfl⟩
  unfold mainFromRepos
  dsimp only
  rw [pyFind_of_opt_some hs, pyFind_of_opt_some he, pySliceTo_nat]
  have hcast : (e : Int) + (MARKER_END.length : Int) =
      ((e + MARKER_END.length : Nat) : Int) := by push_cast; ring
  rw [hcast, pySliceFrom_nat]

/-- Witness for C6 on a small two-marker document. -/
theorem splice_frame_witness :
    ∃ res, mainModel c6readme emptyFetch = .ok res ∧
      res.newReadme =
        c6readme.take 2 ++ newSectionStr res.allRows ++
          c6readme.drop (31 + MARKER_END.length) :=
  (splice_frame c6readme emptyFetch 2 31 (by decide) (by decide) (by decide)).2.2.2.2

/-! ## Claim C10 -/

/-- C10: with either marker absent, both extraction functions return empty
containers, yet `main` still rewrites the file: the splice happens at the
`-1`-shifted Python slice indices and the written content differs from the
original document. -/
theorem missing_marker_behavior (readme : Str) (fetch : Str → HttpResponse)
    (hfetch : fetchOk fetch)
    (hmiss : pyFindOpt readme MARKER_START = none ∨
      pyFindOpt readme MARKER_END = none) :
    parse_existing_entries readme = [] ∧
    parse_table_rows readme = [] ∧
    ∃ res, mainModel readme fetch = .ok res ∧
      res.newReadme =
        pySliceTo readme (pyFind readme MARKER_START) ++
          newSectionStr res.allRows ++
          pySliceFrom readme (pyFind readme MARKER_END + MARKER_END.length) ∧
      res.newReadme ≠ readme := by
  have hpe : parse_existing_entries readme = [] := by
    unfold parse_existing_entries
    rcases hmiss with h | h
    · rw [h]
    · rw [h]
      cases pyFindOpt readme MARKER_START <;> rfl
  have hpt : parse_table_rows readme = [] := by
    unfold parse_table_rows
    rcases hmiss with h | h
    · rw [h]
    · rw [h]
      cases pyFindOpt readme MARKER_START <;> rfl
  refine ⟨hpe, hpt, ?_⟩
  rcases mainModel_isOk readme fetch hfetch with ⟨res, hres⟩
  rcases mainModel_ok_inv hres with ⟨l, _, rfl⟩
  refine ⟨_, hres, rfl, ?_⟩
  intro heq
  have hinfix : newSectionStr (mainFromRepos readme l).allRows <:+:
      (mainFromRepos readme l).newReadme :=
    ⟨pySliceTo readme (pyFind readme MARKER_START),
     pySliceFrom readme (pyFind readme MARKER_END + MARKER_END.length), rfl⟩
  rcases hmiss with h | h
  · have hnin := pyFindOpt_none_iff_not_infix.mp h
    apply hnin
    rw [← heq]
    exact (marker_start_infix_newSection _).trans hinfix
  · have hnin := pyFindOpt_none_iff_not_infix.mp h
    apply hnin
    rw [← heq]
    exact (marker_end_infix_newSection _).trans hinfix

/-- Witness for C10 on a marker-free document. -/
theorem missing_marker_behavior_witness :
    parse_existing_entries c10readme = [] ∧
    parse_table_rows c10readme = [] ∧
    ∃ res, mainModel c10readme emptyFetch = .ok res ∧
      res.newReadme =
        pySliceTo c10readme (pyFind c10readme MARKER_START) ++
          newSectionStr res.allRows ++
          pySliceFrom c10readme (pyFind c10readme MARKER_END + MARKER_END.length) ∧
      res.newReadme ≠ c10readme :=
  missing_marker_behavior c10readme emptyFetch (by decide) (Or.inl (by decide))

/-! ## Claim C7 -/

set_option maxRecDepth 100000 in
/-- C7 counterexample: a canonical URL can appear in more than one row of
the final section — a document whose section already contains the same
row twice keeps both copies when the search returns nothing. -/
theorem dup_url_cex :
    (mainRows c7readme emptyFetch).countP
      (fun row => ((findAllUrls row).map canonicalUrl).contains
        ("https://github.com/a/foo".toList)) = 2 ∧
    (mainRows c7readme emptyFetch).length = 2 := by
  constructor
  · decide
  · decide

/-- C7 (amended): deduplication via the existing-URL set only prevents a
newly added row from repeating a URL of the existing section: every newly
added repository's canonical URL is absent from the set extracted from the
existing section.  Duplicates already present among existing rows (or
among distinct fetched records sharing one canonical URL) are not removed. -/
theorem newRepos_not_in_existing (readme : Str) (fetch : Str → HttpResponse)
    (r : Repo) (hr : r ∈ mainNewRepos readme fetch) :
    canonicalUrl r.html_url ∉ parse_existing_entries readme := by
  unfold mainNewRepos at hr
  cases hm : mainModel readme fetch with
  | error e => rw [hm] at hr; exact absurd hr (List.not_mem_nil _)
  | ok res =>
    rw [hm] at hr
    rcases mainModel_ok_inv hm with ⟨l, _, rfl⟩
    have hr' : r ∈ (partitionRepos l (parse_existing_entries readme)).1 :=
      (List.mem_insertionSort starsDescRepo).mp hr
    unfold partitionRepos at hr'
    rw [partition_fst_mem] at hr'
    rcases hr' with h | ⟨p, _, _, hex⟩
    · exact absurd h (List.not_mem_nil _)
    · intro hmem
      unfold excludedRepo at hex
      have h1 := (Bool.or_eq_false_iff.mp hex).2
      exact of_decide_eq_false h1 hmem

/-- Witness for C7 on a run that adds one genuinely new repository. -/
theorem newRepos_not_in_existing_witness :
    canonicalUrl c7repo.html_url ∉ parse_existing_entries c7wreadme :=
  newRepos_not_in_existing c7wreadme c7fetch c7repo (by decide)

/-! ## Lemmas: the URL pattern -/

theorem drop_takeWhile_length (p : Char → Bool) (l : Str) :
    l.drop (l.takeWhile p).length = l.dropWhile p := by
  have h := List.takeWhile_append_dropWhile (p := p) (l := l)
  calc l.drop (l.takeWhile p).length
      = (l.takeWhile p ++ l.dropWhile p).drop (l.takeWhile p).length := by rw [h]
    _ = l.dropWhile p := List.drop_left _ _

theorem isUrlChar_ne {c : Char} (h : isUrlChar c = true) :
    c ≠ ':' ∧ c ≠ '\n' ∧ c ≠ '<' ∧ c ≠ '|' ∧ c ≠ '/' ∧ c ≠ '(' ∧ c ≠ ')' ∧
      isPyWs c = false := by
  refine ⟨?_, ?_, ?_, ?_, ?_, ?_, ?_, ?_⟩
  · rintro rfl; revert h; decide
  · rintro rfl; revert h; decide
  · rintro rfl; revert h; decide
  · rintro rfl; revert h; decide
  · rintro rfl; revert h; decide
  · rintro rfl; revert h; decide
  · rintro rfl; revert h; decide
  · cases hb : isPyWs c
    · rfl
    · exfalso
      have : c = ' ' ∨ c = '\t' ∨ c = '\n' ∨ c = '\r' ∨ c = '\x0b' ∨ c = '\x0c' := by
        revert hb
        unfold isPyWs
        simp only [Bool.or_eq_true, decide_eq_true_eq]
        tauto
      rcases this with rfl | rfl | rfl | rfl | rfl | rfl <;> revert h <;> decide

theorem matchUrlAt_some {s m rest : Str} (h : matchUrlAt s = some (m, rest)) :
    ∃ o n, m = urlLit ++ o ++ '/' :: n ∧ s = m ++ rest ∧ o ≠ [] ∧ n ≠ [] ∧
      (∀ c ∈ o, isUrlChar c = true) ∧ (∀ c ∈ n, isUrlChar c = true) := by
  unfold matchUrlAt at h
  by_cases hp : urlLit.isPrefixOf s = true
  · rw [if_pos hp] at h
    dsimp only at h
    have hs : s = urlLit ++ s.drop urlLit.length := by
      conv_lhs => rw [← List.take_append_drop urlLit.length s]
      congr 1
      exact (List.prefix_iff_eq_take.mp (List.isPrefixOf_iff_prefix.mp hp)).symm
    split at h
    · rename_i c r3 heq
      by_cases hc : c = '/'
      · rw [if_pos hc] at h
        subst hc
        by_cases hz : (((s.drop urlLit.length).takeWhile isUrlChar).isEmpty ||
            (r3.takeWhile isUrlChar).isEmpty) = true
        · rw [if_pos hz] at h; cases h
        · rw [if_neg hz] at h
          cases h
          have hzf : (((s.drop urlLit.length).takeWhile isUrlChar).isEmpty ||
              (r3.takeWhile isUrlChar).isEmpty) = false := by
            cases hval : (((s.drop urlLit.length).takeWhile isUrlChar).isEmpty ||
                (r3.takeWhile isUrlChar).isEmpty)
            · rfl
            · exact absurd hval hz
          rcases Bool.or_eq_false_iff.mp hzf with ⟨hz1, hz2⟩
          refine ⟨(s.drop urlLit.length).takeWhile isUrlChar,
            r3.takeWhile isUrlChar, rfl, ?_, List.isEmpty_eq_false.mp hz1,
            List.isEmpty_eq_false.mp hz2,
            fun c hc => List.mem_takeWhile_imp hc,
            fun c hc => List.mem_takeWhile_imp hc⟩
          have hr1 : (s.drop urlLit.length).takeWhile isUrlChar ++ '/' :: r3 =
              s.drop urlLit.length := by
            rw [show (s.drop urlLit.length).takeWhile isUrlChar =
              (s.drop urlLit.length).take
                ((s.drop urlLit.length).takeWhile isUrlChar).length from
              List.prefix_iff_eq_take.mp (List.takeWhile_prefix _), ← heq]
            exact List.take_append_drop _ _
          have hr3 : r3.takeWhile isUrlChar ++
              r3.drop (r3.takeWhile isUrlChar).length = r3 := by
            nth_rewrite 1 [show r3.takeWhile isUrlChar =
              r3.take (r3.takeWhile isUrlChar).length from
              List.prefix_iff_eq_take.mp (List.takeWhile_prefix _)]
            exact List.take_append_drop _ _
          calc s = urlLit ++ s.drop urlLit.length := hs
            _ = urlLit ++ ((s.drop urlLit.length).takeWhile isUrlChar ++ '/' :: r3) := by
                rw [hr1]
            _ = urlLit ++ ((s.drop urlLit.length).takeWhile isUrlChar ++ '/' ::
                (r3.takeWhile isUrlChar ++ r3.drop (r3.takeWhile isUrlChar).length)) := by
                rw [hr3]
            _ = _ := by simp [List.append_assoc]
      · rw [if_neg hc] at h; cases h
    · cases h
  · rw [if_neg hp] at h
    cases h

theorem matchUrlAt_rest_lt {s m rest : Str} (h : matchUrlAt s = some (m, rest)) :
    rest.length < s.length := by
  rcases matchUrlAt_some h with ⟨o, n, hm, hs, -, -, -, -⟩
  rw [hs, hm]
  simp [List.length_append]
  omega

theorem findAllUrlsAux_succ_cons (f : Nat) (c : Char) (cs : Str) :
    findAllUrlsAux (f + 1) (c :: cs) =
      match matchUrlAt (c :: cs) with
      | some (m, rest) => m :: findAllUrlsAux f rest
      | none => findAllUrlsAux f cs := rfl

theorem findAllUrlsAux_mono : ∀ (f g : Nat) (s : Str),
    s.length ≤ f → s.length ≤ g → findAllUrlsAux f s = findAllUrlsAux g s := by
  intro f
  induction f with
  | zero =>
    intro g s hf _
    have hs : s = [] := List.length_eq_zero.mp (Nat.le_zero.mp hf)
    subst hs
    cases g <;> rfl
  | succ f ih =>
    intro g s hf hg
    cases s with
    | nil => cases g <;> rfl
    | cons c cs =>
      cases g with
      | zero => simp at hg
      | succ g' =>
        rw [findAllUrlsAux_succ_cons f c cs, findAllUrlsAux_succ_cons g' c cs]
        cases hm : matchUrlAt (c :: cs) with
        | none =>
          dsimp only
          exact ih g' cs (by simp at hf; omega) (by simp at hg; omega)
        | some pr =>
          rcases pr with ⟨m, rest⟩
          dsimp only
          have hlt := matchUrlAt_rest_lt hm
          simp only [List.length_cons] at hlt hf hg
          rw [ih g' rest (by omega) (by omega)]

theorem findAllUrls_cons_none {c : Char} {cs : Str}
    (h : matchUrlAt (c :: cs) = none) :
    findAllUrls (c :: cs) = findAllUrls cs := by
  unfold findAllUrls
  rw [show (c :: cs).length = cs.length + 1 from rfl, findAllUrlsAux_succ_cons, h]

theorem findAllUrls_eq_cons {s m rest : Str} (h : matchUrlAt s = some (m, rest)) :
    findAllUrls s = m :: findAllUrls rest := by
  cases s with
  | nil =>
    rw [show matchUrlAt ([] : Str) = none from rfl] at h
    cases h
  | cons c cs =>
    unfold findAllUrls
    rw [show (c :: cs).length = cs.length + 1 from rfl, findAllUrlsAux_succ_cons, h]
    dsimp only
    have hlt := matchUrlAt_rest_lt h
    simp only [List.length_cons] at hlt
    rw [findAllUrlsAux_mono cs.length rest.length rest (by omega) (le_refl _)]

theorem matchUrlAt_colon {s : Str} {x : Str × Str} (h : matchUrlAt s = some x) :
    s[5]? = some ':' := by
  have hp : urlLit.isPrefixOf s = true := by
    by_contra hp
    unfold matchUrlAt at h
    rw [if_neg hp] at h
    cases h
  rcases List.isPrefixOf_iff_prefix.mp hp with ⟨t, rfl⟩
  rw [List.getElem?_append_left (by decide)]
  decide

theorem matchUrlAt_cons_append_none {c : Char} {a' b : Str}
    (ha : ':' ∉ c :: a') (hb : ':' ∉ b.take 5) :
    matchUrlAt ((c :: a') ++ b) = none := by
  cases hm : matchUrlAt ((c :: a') ++ b) with
  | none => rfl
  | some x =>
    exfalso
    have h5 := matchUrlAt_colon hm
    by_cases hlt : 5 < (c :: a').length
    · rw [List.getElem?_append_left hlt] at h5
      exact ha (List.getElem?_mem h5)
    · rw [List.getElem?_append_right (by omega)] at h5
      apply hb
      have hidx : 5 - (c :: a').length < 5 := by
        simp only [List.length_cons]
        omega
      have : (b.take 5)[5 - (c :: a').length]? = some ':' := by
        rw [List.getElem?_take, if_pos hidx]
        exact h5
      exact List.getElem?_mem this

theorem findAllUrls_append_skip {a b : Str} (ha : ':' ∉ a) (hb : ':' ∉ b.take 5) :
    findAllUrls (a ++ b) = findAllUrls b := by
  induction a with
  | nil => rw [List.nil_append]
  | cons c a' ih =>
    calc findAllUrls ((c :: a') ++ b)
        = findAllUrls (a' ++ b) :=
          findAllUrls_cons_none (matchUrlAt_cons_append_none ha hb)
      _ = findAllUrls b := ih fun h => ha (List.mem_cons_of_mem _ h)

theorem firstGithubUrl_cons_none {c : Char} {cs : Str}
    (h : matchUrlAt (c :: cs) = none) :
    firstGithubUrl (c :: cs) = firstGithubUrl cs := by
  rw [firstGithubUrl, h]

theorem firstGithubUrl_eq_some {s m rest : Str} (h : matchUrlAt s = some (m, rest)) :
    firstGithubUrl s = some m := by
  cases s with
  | nil =>
    rw [show matchUrlAt ([] : Str) = none from rfl] at h
    cases h
  | cons c cs => rw [firstGithubUrl, h]

theorem firstGithubUrl_append_skip {a b : Str} (ha : ':' ∉ a) (hb : ':' ∉ b.take 5) :
    firstGithubUrl (a ++ b) = firstGithubUrl b := by
  induction a with
  | nil => rw [List.nil_append]
  | cons c a' ih =>
    calc firstGithubUrl ((c :: a') ++ b)
        = firstGithubUrl (a' ++ b) :=
          firstGithubUrl_cons_none (matchUrlAt_cons_append_none ha hb)
      _ = firstGithubUrl b := ih fun h => ha (List.mem_cons_of_mem _ h)

theorem takeWhile_all_append {p : Char → Bool} {a : Str}
    (ha : ∀ c ∈ a, p c = true) (b : Str) :
    (a ++ b).takeWhile p = a ++ b.takeWhile p := by
  induction a with
  | nil => rw [List.nil_append, List.nil_append]
  | cons c a' ih =>
    rw [List.cons_append, List.takeWhile_cons,
      if_pos (ha c (List.mem_cons_self _ _)), List.cons_append,
      ih fun x hx => ha x (List.mem_cons_of_mem _ hx)]

theorem matchUrlAt_exact {o n rest : Str} (ho : o ≠ []) (hn : n ≠ [])
    (ho' : ∀ c ∈ o, isUrlChar c = true) (hn' : ∀ c ∈ n, isUrlChar c = true)
    (hrest : ∀ c, rest.head? = some c → isUrlChar c = false) :
    matchUrlAt (urlLit ++ o ++ '/' :: (n ++ rest)) =
      some (urlLit ++ o ++ '/' :: n, rest) := by
  unfold matchUrlAt
  have hpre : urlLit.isPrefixOf (urlLit ++ o ++ '/' :: (n ++ rest)) = true := by
    apply List.isPrefixOf_iff_prefix.mpr
    rw [List.append_assoc]
    exact List.prefix_append _ _
  rw [if_pos hpre]
  dsimp only
  have hdrop : (urlLit ++ o ++ '/' :: (n ++ rest)).drop urlLit.length =
      o ++ '/' :: (n ++ rest) := by
    rw [List.append_assoc, List.drop_left]
  rw [hdrop]
  have htw1 : (o ++ '/' :: (n ++ rest)).takeWhile isUrlChar = o := by
    rw [takeWhile_all_append ho', List.takeWhile_cons, if_neg (by decide),
      List.append_nil]
  rw [htw1, List.drop_left]
  dsimp only
  rw [if_pos rfl]
  have htw2 : (n ++ rest).takeWhile isUrlChar = n := by
    rw [takeWhile_all_append hn']
    cases rest with
    | nil => rw [List.takeWhile_nil, List.append_nil]
    | cons r rs =>
      rw [List.takeWhile_cons, if_neg (by simp [hrest r rfl]), List.append_nil]
  rw [htw2]
  rw [if_neg (by simp [List.isEmpty_iff, ho, hn]), List.drop_left]

theorem findAllUrls_exact {o n rest : Str} (ho : o ≠ []) (hn : n ≠ [])
    (ho' : ∀ c ∈ o, isUrlChar c = true) (hn' : ∀ c ∈ n, isUrlChar c = true)
    (hrest : ∀ c, rest.head? = some c → isUrlChar c = false) :
    findAllUrls (urlLit ++ o ++ '/' :: (n ++ rest)) =
      (urlLit ++ o ++ '/' :: n) :: findAllUrls rest :=
  findAllUrls_eq_cons (matchUrlAt_exact ho hn ho' hn' hrest)

theorem firstGithubUrl_exact {o n rest : Str} (ho : o ≠ []) (hn : n ≠ [])
    (ho' : ∀ c ∈ o, isUrlChar c = true) (hn' : ∀ c ∈ n, isUrlChar c = true)
    (hrest : ∀ c, rest.head? = some c → isUrlChar c = false) :
    firstGithubUrl (urlLit ++ o ++ '/' :: (n ++ rest)) =
      some (urlLit ++ o ++ '/' :: n) :=
  firstGithubUrl_eq_some (matchUrlAt_exact ho hn ho' hn' hrest)

theorem wfUrl_decomp {u : Str} (h : wfUrlB u = true) :
    ∃ o n, u = urlLit ++ o ++ '/' :: n ∧ o ≠ [] ∧ n ≠ [] ∧
      (∀ c ∈ o, isUrlChar c = true) ∧ (∀ c ∈ n, isUrlChar c = true) := by
  have h' : matchUrlAt u = some (u, []) := of_decide_eq_true h
  rcases matchUrlAt_some h' with ⟨o, n, hm, _, h1, h2, h3, h4⟩
  exact ⟨o, n, hm, h1, h2, h3, h4⟩

/-! ## Lemmas: the shape of a rendered row -/

theorem wfRowData_parts {d : RowData} (hd : wfRowData d = true) :
    (∀ c ∈ d.name, isUrlChar c = true) ∧ wfUrlB d.url = true ∧
      (∀ c ∈ d.desc, goodDescChar c = true) := by
  unfold wfRowData at hd
  rw [Bool.and_eq_true, Bool.and_eq_true] at hd
  exact ⟨List.all_eq_true.mp hd.1.1, hd.1.2, List.all_eq_true.mp hd.2⟩

theorem goodDescChar_ne {c : Char} (h : goodDescChar c = true) :
    c ≠ '\n' ∧ c ≠ ':' ∧ c ≠ '<' ∧ c ≠ '|' := by
  unfold goodDescChar at h
  simp only [Bool.not_eq_true', Bool.or_eq_false_iff, decide_eq_false_iff_not] at h
  exact ⟨h.1.1.1, h.1.1.2, h.1.2, h.2⟩

theorem mem_wfUrl {u : Str} {c : Char} (hu : wfUrlB u = true) (hc : c ∈ u) :
    c ∈ urlLit ∨ c = '/' ∨ isUrlChar c = true := by
  rcases wfUrl_decomp hu with ⟨o, n, rfl, -, -, ho, hn⟩
  simp only [List.append_assoc, List.mem_append, List.mem_cons] at hc
  rcases hc with h | h | h | h
  · exact Or.inl h
  · exact Or.inr (Or.inr (ho c h))
  · exact Or.inr (Or.inl h)
  · exact Or.inr (Or.inr (hn c h))

theorem wfUrl_no_newline {u : Str} (hu : wfUrlB u = true) : '\n' ∉ u := by
  intro hc
  rcases mem_wfUrl hu hc with h | h | h
  · revert h; decide
  · cases h
  · revert h; decide

theorem wfUrl_no_lt {u : Str} (hu : wfUrlB u = true) : '<' ∉ u := by
  intro hc
  rcases mem_wfUrl hu hc with h | h | h
  · revert h; decide
  · cases h
  · revert h; decide

theorem wfUrl_no_pipe {u : Str} (hu : wfUrlB u = true) : '|' ∉ u := by
  intro hc
  rcases mem_wfUrl hu hc with h | h | h
  · revert h; decide
  · cases h
  · revert h; decide

theorem renderRow_mem_cases {d : RowData} {c : Char} (hc : c ∈ renderRow d) :
    c ∈ ("| []() ".toList : Str) ∨ c ∈ d.name ∨ c ∈ d.url ∨ c ∈ d.desc ∨
      c ∈ natStr d.stars := by
  unfold renderRow at hc
  simp only [List.mem_append, or_assoc] at hc
  have sub1 : ∀ y ∈ ("| [".toList : Str), y ∈ ("| []() ".toList : Str) := by decide
  have sub2 : ∀ y ∈ ("](".toList : Str), y ∈ ("| []() ".toList : Str) := by decide
  have sub3 : ∀ y ∈ (") | ".toList : Str), y ∈ ("| []() ".toList : Str) := by decide
  have sub4 : ∀ y ∈ (" | ".toList : Str), y ∈ ("| []() ".toList : Str) := by decide
  have sub5 : ∀ y ∈ (" |".toList : Str), y ∈ ("| []() ".toList : Str) := by decide
  rcases hc with h | h | h | h | h | h | h | h | h
  · exact Or.inl (sub1 c h)
  · exact Or.inr (Or.inl h)
  · exact Or.inl (sub2 c h)
  · exact Or.inr (Or.inr (Or.inl h))
  · exact Or.inl (sub3 c h)
  · exact Or.inr (Or.inr (Or.inr (Or.inl h)))
  · exact Or.inl (sub4 c h)
  · exact Or.inr (Or.inr (Or.inr (Or.inr h)))
  · exact Or.inl (sub5 c h)

theorem renderRow_no_newline {d : RowData} (hd : wfRowData d = true) :
    '\n' ∉ renderRow d := by
  obtain ⟨hname, hurl, hdesc⟩ := wfRowData_parts hd
  intro hmem
  rcases renderRow_mem_cases hmem with h | h | h | h | h
  · revert h; decide
  · exact (isUrlChar_ne (hname _ h)).2.1 rfl
  · exact wfUrl_no_newline hurl h
  · exact (goodDescChar_ne (hdesc _ h)).1 rfl
  · exact (decDigit_facts _ (natStr_subset_decDigits h)).2.2.2.2.2.2.2.2.1 rfl

theorem renderRow_no_lt {d : RowData} (hd : wfRowData d = true) :
    '<' ∉ renderRow d := by
  obtain ⟨hname, hurl, hdesc⟩ := wfRowData_parts hd
  intro hmem
  rcases renderRow_mem_cases hmem with h | h | h | h | h
  · revert h; decide
  · exact (isUrlChar_ne (hname _ h)).2.2.1 rfl
  · exact wfUrl_no_lt hurl h
  · exact (goodDescChar_ne (hdesc _ h)).2.2.1 rfl
  · exact (decDigit_facts _ (natStr_subset_decDigits h)).2.2.2.2.2.2.2.2.2.2.1 rfl

theorem renderRow_norm (d : RowData) :
    renderRow d = '|' :: ' ' :: '[' :: (d.name ++ ']' :: '(' ::
      (d.url ++ ')' :: ' ' :: '|' :: ' ' :: (d.desc ++ ' ' :: '|' :: ' ' ::
        (natStr d.stars ++ [' ', '|'])))) := by
  unfold renderRow
  rw [show ("| [".toList : Str) = ['|', ' ', '['] from rfl,
    show ("](".toList : Str) = [']', '('] from rfl,
    show (") | ".toList : Str) = [')', ' ', '|', ' '] from rfl,
    show (" | ".toList : Str) = [' ', '|', ' '] from rfl,
    show (" |".toList : Str) = [' ', '|'] from rfl]
  simp [List.append_assoc]

theorem renderRow_concat (d : RowData) :
    renderRow d = ('|' :: ' ' :: '[' :: (d.name ++ ']' :: '(' ::
      (d.url ++ ')' :: ' ' :: '|' :: ' ' :: (d.desc ++ ' ' :: '|' :: ' ' ::
        (natStr d.stars ++ [' ']))))) ++ ['|'] := by
  rw [renderRow_norm]
  simp [List.append_assoc]

theorem pyStrip_renderRow (d : RowData) : pyStrip (renderRow d) = renderRow d := by
  apply pyStrip_eq_self
  · intro c hc
    rw [renderRow_norm] at hc
    cases hc
    rfl
  · intro c hc
    rw [renderRow_concat] at hc
    rw [List.getLast?_concat] at hc
    cases hc
    rfl

theorem keepRowLine_renderRow (d : RowData) :
    keepRowLine (renderRow d) = some (renderRow d) := by
  unfold keepRowLine
  rw [pyStrip_renderRow]
  have hn : (("| Name".toList : Str)).isPrefixOf (renderRow d) = false := by
    rw [renderRow_norm]
    simp [List.isPrefixOf]
  have hsep : (("|---".toList : Str)).isPrefixOf (renderRow d) = false := by
    rw [renderRow_norm]
    simp [List.isPrefixOf]
  have hbar : (['|'] : Str).isPrefixOf (renderRow d) = true := by
    rw [renderRow_norm]
    simp [List.isPrefixOf]
  rw [if_neg (by rw [hn]; simp), if_neg (by rw [hsep]; simp), if_pos hbar]

theorem pipe_notin_parts {d : RowData} (hd : wfRowData d = true) :
    '|' ∉ d.name ∧ '|' ∉ d.url ∧ '|' ∉ d.desc ∧ '|' ∉ natStr d.stars := by
  obtain ⟨hname, hurl, hdesc⟩ := wfRowData_parts hd
  refine ⟨?_, wfUrl_no_pipe hurl, ?_, natStr_pipeFree _⟩
  · exact fun h => (isUrlChar_ne (hname _ h)).2.2.2.1 rfl
  · exact fun h => (goodDescChar_ne (hdesc _ h)).2.2.2 rfl

theorem pipe_notin_rowField1 {d : RowData} (hd : wfRowData d = true) :
    '|' ∉ rowField1 d := by
  obtain ⟨hn, hu, -, -⟩ := pipe_notin_parts hd
  intro h
  rcases List.mem_cons.mp h with h | h
  · exact absurd h (by decide)
  rcases List.mem_cons.mp h with h | h
  · exact absurd h (by decide)
  rcases List.mem_append.mp h with h | h
  · exact hn h
  rcases List.mem_cons.mp h with h | h
  · exact absurd h (by decide)
  rcases List.mem_cons.mp h with h | h
  · exact absurd h (by decide)
  rcases List.mem_append.mp h with h | h
  · exact hu h
  rcases List.mem_cons.mp h with h | h
  · exact absurd h (by decide)
  rcases List.mem_cons.mp h with h | h
  · exact absurd h (by decide)
  exact absurd h (List.not_mem_nil _)

theorem pipe_notin_rowField2 {d : RowData} (hd : wfRowData d = true) :
    '|' ∉ rowField2 d := by
  obtain ⟨-, -, hde, -⟩ := pipe_notin_parts hd
  intro h
  rcases List.mem_cons.mp h with h | h
  · exact absurd h (by decide)
  rcases List.mem_append.mp h with h | h
  · exact hde h
  rcases List.mem_cons.mp h with h | h
  · exact absurd h (by decide)
  exact absurd h (List.not_mem_nil _)

theorem pipe_notin_rowField3 {d : RowData} (hd : wfRowData d = true) :
    '|' ∉ rowField3 d := by
  obtain ⟨-, -, -, hst⟩ := pipe_notin_parts hd
  intro h
  rcases List.mem_cons.mp h with h | h
  · exact absurd h (by decide)
  rcases List.mem_append.mp h with h | h
  · exact hst h
  rcases List.mem_cons.mp h with h | h
  · exact absurd h (by decide)
  exact absurd h (List.not_mem_nil _)

theorem splitOnChar_cons_sep (sep : Char) (x : Str) :
    splitOnChar sep (sep :: x) = [] :: splitOnChar sep x := by
  simp [splitOnChar]

theorem splitPipe_renderRow {d : RowData} (hd : wfRowData d = true) :
    splitPipe (renderRow d) = [[], rowField1 d, rowField2 d, rowField3 d, []] := by
  have hsegs : renderRow d = '|' :: (rowField1 d ++ '|' ::
      (rowField2 d ++ '|' :: (rowField3 d ++ '|' :: ([] : Str)))) := by
    rw [renderRow_norm]
    unfold rowField1 rowField2 rowField3
    simp [List.append_assoc]
  unfold splitPipe
  rw [hsegs, splitOnChar_cons_sep,
    splitOnChar_append_cons (pipe_notin_rowField1 hd),
    splitOnChar_append_cons (pipe_notin_rowField2 hd),
    splitOnChar_append_cons (pipe_notin_rowField3 hd)]
  rfl

theorem pyRemoveCommas_digits {s : Str} (h : ∀ c ∈ s, c ∈ decDigits) :
    pyRemoveCommas s = s :=
  List.filter_eq_self.mpr fun c hc =>
    decide_eq_true ((decDigit_facts _ (h c hc)).2.2.2.2.2.2.2.1)

theorem extract_stars_renderRow {d : RowData} (hd : wfRowData d = true) :
    extract_stars_from_row (renderRow d) = (d.stars : Int) := by
  simp only [extract_stars_from_row]
  rw [splitPipe_renderRow hd]
  rw [if_pos (by simp)]
  rw [show (([[], rowField1 d, rowField2 d, rowField3 d, []] : List Str)).getD 3 [] =
    rowField3 d from rfl]
  rw [show rowField3 d = ' ' :: (natStr d.stars ++ [' ']) from rfl,
    pyStrip_cons_ws (show isPyWs ' ' = true from rfl),
    pyStrip_concat_ws (show isPyWs ' ' = true from rfl),
    pyStrip_of_digits fun c hc => natStr_subset_decDigits hc,
    pyRemoveCommas_digits fun c hc => natStr_subset_decDigits hc,
    pyToInt_natStr]

theorem firstGithubUrl_renderRow {d : RowData} (hd : wfRowData d = true) :
    firstGithubUrl (renderRow d) = some d.url := by
  obtain ⟨hname, hurl, hdesc⟩ := wfRowData_parts hd
  rcases wfUrl_decomp hurl with ⟨o, n, hu, ho, hn, ho', hn'⟩
  have hsplit : renderRow d = (('|' :: ' ' :: '[' :: (d.name ++ [']', '('])) : Str) ++
      (d.url ++ (')' :: ' ' :: '|' :: ' ' :: (d.desc ++ ' ' :: '|' :: ' ' ::
        (natStr d.stars ++ [' ', '|'])))) := by
    rw [renderRow_norm]
    simp [List.append_assoc]
  have ha : ':' ∉ (('|' :: ' ' :: '[' :: (d.name ++ [']', '('])) : Str) := by
    intro h
    rcases List.mem_cons.mp h with h | h
    · exact absurd h (by decide)
    rcases List.mem_cons.mp h with h | h
    · exact absurd h (by decide)
    rcases List.mem_cons.mp h with h | h
    · exact absurd h (by decide)
    rcases List.mem_append.mp h with h | h
    · exact (isUrlChar_ne (hname _ h)).1 rfl
    rcases List.mem_cons.mp h with h | h
    · exact absurd h (by decide)
    rcases List.mem_cons.mp h with h | h
    · exact absurd h (by decide)
    exact absurd h (List.not_mem_nil _)
  have hb : ':' ∉ (d.url ++ (')' :: ' ' :: '|' :: ' ' :: (d.desc ++ ' ' :: '|' :: ' ' ::
      (natStr d.stars ++ [' ', '|'])))).take 5 := by
    have hform : d.url ++ (')' :: ' ' :: '|' :: ' ' :: (d.desc ++ ' ' :: '|' :: ' ' ::
        (natStr d.stars ++ [' ', '|']))) = urlLit ++ (o ++ '/' :: n ++
        (')' :: ' ' :: '|' :: ' ' :: (d.desc ++ ' ' :: '|' :: ' ' ::
          (natStr d.stars ++ [' ', '|'])))) := by
      rw [hu]
      simp [List.append_assoc]
    rw [hform, List.take_append_of_le_length (by decide)]
    decide
  rw [hsplit, firstGithubUrl_append_skip ha hb]
  have hform2 : d.url ++ (')' :: ' ' :: '|' :: ' ' :: (d.desc ++ ' ' :: '|' :: ' ' ::
      (natStr d.stars ++ [' ', '|']))) = urlLit ++ o ++ '/' :: (n ++
      (')' :: ' ' :: '|' :: ' ' :: (d.desc ++ ' ' :: '|' :: ' ' ::
        (natStr d.stars ++ [' ', '|'])))) := by
    rw [hu]
    simp [List.append_assoc]
  rw [hform2, firstGithubUrl_exact ho hn ho' hn'
    (fun c hc => by cases hc; decide), ← hu]

theorem update_row_stars_renderRow {d : RowData} (hd : wfRowData d = true)
    (m : List (Str × Repo)) :
    update_row_stars (renderRow d) m =
      renderRow { d with stars :=
        (match pyGet m (canonicalUrl d.url) with
         | some r => r.stargazers_count
         | none => d.stars) } := by
  unfold update_row_stars
  rw [firstGithubUrl_renderRow hd]
  dsimp only
  cases hg : pyGet m (canonicalUrl d.url) with
  | none => rfl
  | some r =>
    dsimp only
    rw [splitPipe_renderRow hd]
    rw [if_pos (by simp)]
    rw [show (([[], rowField1 d, rowField2 d, rowField3 d, []] : List Str)).set 3
      (' ' :: natStr r.stargazers_count ++ [' ']) =
      [[], rowField1 d, rowField2 d, ' ' :: natStr r.stargazers_count ++ [' '], []]
      from rfl]
    show '|' :: (rowField1 d ++ '|' :: (rowField2 d ++ '|' ::
      ((' ' :: natStr r.stargazers_count ++ [' ']) ++ ['|']))) = _
    rw [renderRow_norm]
    unfold rowField1 rowField2
    simp [List.append_assoc]

/-! ## Lemmas: URLs of a whole section -/

theorem notMem_take_append {c : Char} {a b : Str} {n : Nat}
    (ha : c ∉ a) (hb : c ∉ b.take n) : c ∉ (a ++ b).take n := by
  intro h
  rw [List.take_append_eq_append_take] at h
  rcases List.mem_append.mp h with h | h
  · exact ha (List.take_subset _ _ h)
  · apply hb
    have heq : b.take (n - a.length) = (b.take n).take (n - a.length) := by
      rw [List.take_take, Nat.min_eq_left (by omega)]
    rw [heq] at h
    exact List.take_subset _ _ h

theorem mem_joinChar {sep : Char} {c : Char} :
    ∀ {parts : List Str}, c ∈ joinChar sep parts →
      c = sep ∨ ∃ p ∈ parts, c ∈ p := by
  intro parts
  induction parts with
  | nil => intro h; exact absurd h (List.not_mem_nil c)
  | cons p ps ih =>
    intro h
    cases ps with
    | nil =>
      exact Or.inr ⟨p, List.mem_cons_self _ _, h⟩
    | cons q rest =>
      rw [show joinChar sep (p :: q :: rest) = p ++ sep :: joinChar sep (q :: rest)
        from rfl] at h
      rcases List.mem_append.mp h with h | h
      · exact Or.inr ⟨p, List.mem_cons_self _ _, h⟩
      · rcases List.mem_cons.mp h with h | h
        · exact Or.inl h
        · rcases ih h with h | ⟨r, hr, hcr⟩
          · exact Or.inl h
          · exact Or.inr ⟨r, List.mem_cons_of_mem _ hr, hcr⟩

theorem tableBody_no_lt {ds : List RowData}
    (hds : ∀ d ∈ ds, wfRowData d = true) : '<' ∉ tableBody ds := by
  intro h
  rcases mem_joinChar h with h | ⟨p, hp, hcp⟩
  · cases h
  · rcases List.mem_map.mp hp with ⟨d, hd, rfl⟩
    exact renderRow_no_lt (hds d hd) hcp

theorem tableBody_no_newline_rows {ds : List RowData}
    (hds : ∀ d ∈ ds, wfRowData d = true) :
    ∀ p ∈ ds.map renderRow, '\n' ∉ p := by
  intro p hp
  rcases List.mem_map.mp hp with ⟨d, hd, rfl⟩
  exact renderRow_no_newline (hds d hd)

theorem occursAt_getElem {pat t : Str} {j i : Nat} (h : occursAt pat t j)
    (hi : i < pat.length) : t[j + i]? = pat[i]? := by
  unfold occursAt at h
  rcases h with ⟨rest, hrest⟩
  rw [← List.getElem?_drop, ← hrest, List.getElem?_append_left hi]

theorem mem_urlFold (u : Str) : ∀ (l : List Str) (acc : List Str),
    (u ∈ l.foldl (fun acc x =>
      let cu := canonicalUrl x
      if cu ∈ acc then acc else acc ++ [cu]) acc ↔
    u ∈ acc ∨ ∃ x ∈ l, canonicalUrl x = u) := by
  intro l
  induction l with
  | nil =>
    intro acc
    rw [List.foldl_nil]
    constructor
    · exact Or.inl
    · rintro (h | ⟨x, hx, -⟩)
      · exact h
      · exact absurd hx (List.not_mem_nil x)
  | cons x l' ih =>
    intro acc
    rw [List.foldl_cons, ih]
    dsimp only
    by_cases hmem : canonicalUrl x ∈ acc
    · rw [if_pos hmem]
      constructor
      · rintro (h | ⟨y, hy, hyu⟩)
        · exact Or.inl h
        · exact Or.inr ⟨y, List.mem_cons_of_mem _ hy, hyu⟩
      · rintro (h | ⟨y, hy, hyu⟩)
        · exact Or.inl h
        · rcases List.mem_cons.mp hy with rfl | hy
          · exact Or.inl (hyu ▸ hmem)
          · exact Or.inr ⟨y, hy, hyu⟩
    · rw [if_neg hmem]
      constructor
      · rintro (h | ⟨y, hy, hyu⟩)
        · rcases List.mem_append.mp h with h | h
          · exact Or.inl h
          · rcases List.mem_singleton.mp h with rfl
            exact Or.inr ⟨x, List.mem_cons_self _ _, rfl⟩
        · exact Or.inr ⟨y, List.mem_cons_of_mem _ hy, hyu⟩
      · rintro (h | ⟨y, hy, hyu⟩)
        · exact Or.inl (List.mem_append.mpr (Or.inl h))
        · rcases List.mem_cons.mp hy with rfl | hy
          · exact Or.inl (List.mem_append.mpr (Or.inr (by simp [hyu])))
          · exact Or.inr ⟨y, hy, hyu⟩

theorem renderRow_append_take5 {e : RowData} (he : wfRowData e = true)
    (Z : Str) : ':' ∉ (renderRow e ++ Z).take 5 := by
  obtain ⟨hname, -, -⟩ := wfRowData_parts he
  rw [renderRow_norm, List.cons_append, List.cons_append, List.cons_append]
  intro h
  rw [List.take_succ_cons, List.take_succ_cons, List.take_succ_cons] at h
  rcases List.mem_cons.mp h with h | h
  · exact absurd h (by decide)
  rcases List.mem_cons.mp h with h | h
  · exact absurd h (by decide)
  rcases List.mem_cons.mp h with h | h
  · exact absurd h (by decide)
  rw [List.append_assoc] at h
  refine notMem_take_append ?_ ?_ h
  · exact fun hc => (isUrlChar_ne (hname _ hc)).1 rfl
  · rw [List.cons_append, List.cons_append, List.take_succ_cons,
      List.take_succ_cons, List.take_zero]
    decide

theorem findAllUrls_row {d : RowData} {X : Str} (hd : wfRowData d = true)
    (hX : ':' ∉ X.take 5) :
    findAllUrls (renderRow d ++ '\n' :: X) = d.url :: findAllUrls X := by
  obtain ⟨hname, hurl, hdesc⟩ := wfRowData_parts hd
  rcases wfUrl_decomp hurl with ⟨o, n, hu, ho, hn, ho', hn'⟩
  have hsplit : renderRow d ++ '\n' :: X =
      (('|' :: ' ' :: '[' :: (d.name ++ [']', '('])) : Str) ++
      (d.url ++ (')' :: ' ' :: '|' :: ' ' :: (d.desc ++ ' ' :: '|' :: ' ' ::
        (natStr d.stars ++ (' ' :: '|' :: '\n' :: X))))) := by
    rw [renderRow_norm]
    simp [List.append_assoc]
  have ha : ':' ∉ (('|' :: ' ' :: '[' :: (d.name ++ [']', '('])) : Str) := by
    intro h
    rcases List.mem_cons.mp h with h | h
    · exact absurd h (by decide)
    rcases List.mem_cons.mp h with h | h
    · exact absurd h (by decide)
    rcases List.mem_cons.mp h with h | h
    · exact absurd h (by decide)
    rcases List.mem_append.mp h with h | h
    · exact (isUrlChar_ne (hname _ h)).1 rfl
    rcases List.mem_cons.mp h with h | h
    · exact absurd h (by decide)
    rcases List.mem_cons.mp h with h | h
    · exact absurd h (by decide)
    exact absurd h (List.not_mem_nil _)
  have hbform : d.url ++ (')' :: ' ' :: '|' :: ' ' :: (d.desc ++ ' ' :: '|' :: ' ' ::
      (natStr d.stars ++ (' ' :: '|' :: '\n' :: X)))) =
      urlLit ++ o ++ '/' :: (n ++ (')' :: ' ' :: '|' :: ' ' ::
        (d.desc ++ ' ' :: '|' :: ' ' :: (natStr d.stars ++
          (' ' :: '|' :: '\n' :: X))))) := by
    rw [hu]
    simp [List.append_assoc]
  have hb : ':' ∉ (d.url ++ (')' :: ' ' :: '|' :: ' ' :: (d.desc ++ ' ' :: '|' :: ' ' ::
      (natStr d.stars ++ (' ' :: '|' :: '\n' :: X))))).take 5 := by
    rw [hbform]
    rw [show urlLit ++ o ++ '/' :: (n ++ (')' :: ' ' :: '|' :: ' ' ::
      (d.desc ++ ' ' :: '|' :: ' ' :: (natStr d.stars ++ (' ' :: '|' :: '\n' :: X))))) =
      urlLit ++ (o ++ '/' :: (n ++ (')' :: ' ' :: '|' :: ' ' ::
      (d.desc ++ ' ' :: '|' :: ' ' :: (natStr d.stars ++ (' ' :: '|' :: '\n' :: X))))))
      from by simp [List.append_assoc]]
    rw [List.take_append_of_le_length (by decide)]
    decide
  rw [hsplit, findAllUrls_append_skip ha hb, hbform,
    findAllUrls_exact ho hn ho' hn' (fun c hc => by cases hc; decide)]
  congr 1
  · rw [← hu]
  · have hcform : (')' :: ' ' :: '|' :: ' ' :: (d.desc ++ ' ' :: '|' :: ' ' ::
        (natStr d.stars ++ (' ' :: '|' :: '\n' :: X)))) =
        ((')' :: ' ' :: '|' :: ' ' :: (d.desc ++ ' ' :: '|' :: ' ' ::
          (natStr d.stars ++ [' ', '|', '\n']))) : Str) ++ X := by
      simp [List.append_assoc]
    rw [hcform]
    apply findAllUrls_append_skip _ hX
    intro h
    rcases List.mem_cons.mp h with h | h
    · exact absurd h (by decide)
    rcases List.mem_cons.mp h with h | h
    · exact absurd h (by decide)
    rcases List.mem_cons.mp h with h | h
    · exact absurd h (by decide)
    rcases List.mem_cons.mp h with h | h
    · exact absurd h (by decide)
    rcases List.mem_append.mp h with h | h
    · exact (goodDescChar_ne (hdesc _ h)).2.1 rfl
    rcases List.mem_cons.mp h with h | h
    · exact absurd h (by decide)
    rcases List.mem_cons.mp h with h | h
    · exact absurd h (by decide)
    rcases List.mem_cons.mp h with h | h
    · exact absurd h (by decide)
    rcases List.mem_append.mp h with h | h
    · exact (decDigit_facts _ (natStr_subset_decDigits h)).2.2.2.2.2.2.2.2.2.1 rfl
    rcases List.mem_cons.mp h with h | h
    · exact absurd h (by decide)
    rcases List.mem_cons.mp h with h | h
    · exact absurd h (by decide)
    rcases List.mem_cons.mp h with h | h
    · exact absurd h (by decide)
    exact absurd h (List.not_mem_nil _)

theorem findAllUrls_rowsBlob : ∀ {ds : List RowData},
    (∀ d ∈ ds, wfRowData d = true) →
    findAllUrls (tableBody ds ++ ['\n']) = ds.map (fun d => d.url) := by
  intro ds
  induction ds with
  | nil =>
    intro _
    rw [show tableBody [] ++ ['\n'] = (['\n'] : Str) ++ ([] : Str) from rfl]
    rw [findAllUrls_append_skip (by decide) (by decide)]
    rfl
  | cons d ds' ih =>
    intro hds
    have hd := hds d (List.mem_cons_self _ _)
    have hds' : ∀ x ∈ ds', wfRowData x = true :=
      fun x hx => hds x (List.mem_cons_of_mem _ hx)
    cases ds' with
    | nil =>
      rw [show tableBody [d] ++ ['\n'] = renderRow d ++ '\n' :: ([] : Str) from by
        unfold tableBody
        simp [joinChar]]
      rw [findAllUrls_row hd (by decide)]
      rfl
    | cons e ds'' =>
      have hblob : tableBody (d :: e :: ds'') ++ ['\n'] =
          renderRow d ++ '\n' :: (tableBody (e :: ds'') ++ ['\n']) := by
        unfold tableBody
        rw [List.map_cons, List.map_cons,
          show joinChar '\n' (renderRow d :: renderRow e :: List.map renderRow ds'') =
            renderRow d ++ '\n' :: joinChar '\n' (renderRow e :: List.map renderRow ds'')
          from rfl]
        simp [List.append_assoc]
      rw [hblob]
      have htake : ':' ∉ (tableBody (e :: ds'') ++ ['\n']).take 5 := by
        have hfirst : tableBody (e :: ds'') ++ ['\n'] =
            renderRow e ++ ((tableBody (e :: ds'') ++ ['\n']).drop (renderRow e).length) := by
          cases ds'' with
          | nil =>
            rw [show tableBody [e] = renderRow e from by unfold tableBody; simp [joinChar]]
            rw [List.drop_left]
          | cons f ds3 =>
            have : tableBody (e :: f :: ds3) ++ ['\n'] =
                renderRow e ++ ('\n' :: (tableBody (f :: ds3) ++ ['\n'])) := by
              unfold tableBody
              rw [List.map_cons, List.map_cons,
                show joinChar '\n' (renderRow e :: renderRow f :: List.map renderRow ds3) =
                  renderRow e ++ '\n' :: joinChar '\n' (renderRow f :: List.map renderRow ds3)
                from rfl]
              simp [List.append_assoc]
            rw [this, List.drop_left]
        rw [hfirst]
        exact renderRow_append_take5 (hds' e (List.mem_cons_self _ _)) _
      rw [findAllUrls_row hd htake, ih hds']
      rfl

/-! ## Lemmas: parsing a generated document -/

theorem occursAt_add_iff (pat A B : Str) (k : Nat) :
    occursAt pat (A ++ B) (A.length + k) ↔ occursAt pat B k := by
  unfold occursAt
  rw [List.drop_append_eq_append_drop, List.drop_eq_nil_of_le (by omega),
    Nat.add_sub_cancel_left, List.nil_append]

theorem no_lt_occurrence {pat : Str} (hpat : pat[0]? = some '<')
    {A B : Str} (hA : '<' ∉ A) {j : Nat} (hj : j < A.length) :
    ¬ occursAt pat (A ++ B) j := by
  intro h
  have hlen : 0 < pat.length := by
    cases pat with
    | nil => simp at hpat
    | cons c cs => simp
  have h0 := occursAt_getElem h hlen
  rw [Nat.add_zero, hpat, List.getElem?_append_left hj] at h0
  exact hA (List.getElem?_mem h0)

theorem docSection_decomp (pre post : Str) (ds : List RowData) :
    pre ++ docSection ds ++ post = docBeforeEnd pre ds ++ MARKER_END ++ post := by
  simp [docSection, newSectionStr, tableBody, docBeforeEnd, List.append_assoc]

/-- `readme.find(MARKER_START)` on a generated document. -/
theorem parse_find_start {pre : Str} (post : Str) (ds : List RowData)
    (hpre : '<' ∉ pre) :
    pyFindOpt (pre ++ docSection ds ++ post) MARKER_START = some pre.length := by
  apply pyFindOpt_eq_some_iff.mpr
  constructor
  · rw [show pre ++ docSection ds ++ post = pre ++ MARKER_START ++
      ('\n' :: (tableHeader ++ (tableBody ds ++ ('\n' :: (MARKER_END ++ post)))))
      from by simp [docSection, newSectionStr, tableBody, List.append_assoc]]
    exact occursAt_append_self _ _ _
  · intro j hj
    rw [List.append_assoc]
    exact no_lt_occurrence (by decide) hpre hj

/-- `readme.find(MARKER_END)` on a generated document. -/
theorem parse_find_end {pre post : Str} {ds : List RowData} (hpre : '<' ∉ pre)
    (hds : ∀ d ∈ ds, wfRowData d = true) :
    pyFindOpt (pre ++ docSection ds ++ post) MARKER_END =
      some (docBeforeEnd pre ds).length := by
  have hsplitS : MARKER_START = '<' :: ("!-- NANO_LIST_START -->".toList) := by
    decide
  have hPsplit : docBeforeEnd pre ds = (pre ++ ['<']) ++
      (("!-- NANO_LIST_START -->".toList) ++
        ('\n' :: (tableHeader ++ (tableBody ds ++ ['\n'])))) := by
    simp only [docBeforeEnd]
    rw [hsplitS]
    simp [List.append_assoc]
  apply pyFindOpt_eq_some_iff.mpr
  constructor
  · rw [docSection_decomp]
    exact occursAt_append_self _ _ _
  · intro j hj hocc
    rcases Nat.lt_trichotomy j pre.length with hcase | hcase | hcase
    · rw [List.append_assoc] at hocc
      exact no_lt_occurrence (by decide) hpre hcase hocc
    · have h15 := occursAt_getElem hocc
        (show 15 < MARKER_END.length from by decide)
      rw [show pre ++ docSection ds ++ post = (pre ++ MARKER_START) ++
          ('\n' :: (tableHeader ++ (tableBody ds ++ ('\n' :: (MARKER_END ++ post)))))
          from by simp [docSection, newSectionStr, tableBody, List.append_assoc]]
        at h15
      rw [hcase, List.getElem?_append_left
        (by rw [List.length_append]
            have h24 : MARKER_START.length = 24 := by decide
            omega)] at h15
      rw [List.getElem?_append_right (by omega), Nat.add_sub_cancel_left] at h15
      exact absurd h15 (by decide)
    · have hW : '<' ∉ ("!-- NANO_LIST_START -->".toList) ++
          ('\n' :: (tableHeader ++ (tableBody ds ++ ['\n']))) := by
        intro hmem
        rcases List.mem_append.mp hmem with h | h
        · revert h; decide
        rcases List.mem_cons.mp h with h | h
        · exact absurd h (by decide)
        rcases List.mem_append.mp h with h | h
        · revert h; decide
        rcases List.mem_append.mp h with h | h
        · exact tableBody_no_lt hds h
        · exact absurd h (by decide)
      have hlen2 := congrArg List.length hPsplit
      rw [List.length_append, List.length_append, List.length_singleton] at hlen2
      have hj2 : j = (pre ++ ['<']).length + (j - (pre.length + 1)) := by
        rw [List.length_append, List.length_singleton]
        omega
      rw [docSection_decomp, List.append_assoc, hPsplit, List.append_assoc,
        hj2] at hocc
      have hocc' := (occursAt_add_iff _ _ _ _).mp hocc
      exact no_lt_occurrence (by decide) hW (by omega) hocc'

theorem tableBody_getLast : ∀ {ds : List RowData}, ds ≠ [] →
    (tableBody ds).getLast? = some '|' := by
  intro ds
  induction ds with
  | nil => intro h; exact absurd rfl h
  | cons d ds' ih =>
    intro _
    cases ds' with
    | nil =>
      rw [show tableBody [d] = renderRow d from by unfold tableBody; simp [joinChar]]
      rw [renderRow_concat, List.getLast?_concat]
    | cons e rest =>
      rw [show tableBody (d :: e :: rest) =
          renderRow d ++ '\n' :: tableBody (e :: rest) from by
        unfold tableBody
        rw [List.map_cons, List.map_cons,
          show joinChar '\n' (renderRow d :: renderRow e :: List.map renderRow rest) =
            renderRow d ++ '\n' :: joinChar '\n' (renderRow e :: List.map renderRow rest)
          from rfl]]
      rw [List.getLast?_append,
        show ('\n' :: tableBody (e :: rest) : Str) = ['\n'] ++ tableBody (e :: rest)
          from rfl,
        List.getLast?_append, ih (by simp)]
      rfl

theorem tableBody_take5 {ds : List RowData}
    (hds : ∀ d ∈ ds, wfRowData d = true) :
    ':' ∉ (tableBody ds ++ ['\n']).take 5 := by
  cases ds with
  | nil => decide
  | cons d ds' =>
    have hfirst : tableBody (d :: ds') ++ ['\n'] =
        renderRow d ++ ((tableBody (d :: ds') ++ ['\n']).drop (renderRow d).length) := by
      cases ds' with
      | nil =>
        rw [show tableBody [d] = renderRow d from by unfold tableBody; simp [joinChar]]
        rw [List.drop_left]
      | cons e rest =>
        have heq : tableBody (d :: e :: rest) ++ ['\n'] =
            renderRow d ++ ('\n' :: (tableBody (e :: rest) ++ ['\n'])) := by
          unfold tableBody
          rw [List.map_cons, List.map_cons,
            show joinChar '\n' (renderRow d :: renderRow e :: List.map renderRow rest) =
              renderRow d ++ '\n' :: joinChar '\n' (renderRow e :: List.map renderRow rest)
            from rfl]
          simp [List.append_assoc]
        rw [heq, List.drop_left]
    rw [hfirst]
    exact renderRow_append_take5 (hds d (List.mem_cons_self _ _)) _

theorem filterMap_keepRowLine : ∀ (ds : List RowData),
    (ds.map renderRow).filterMap keepRowLine = ds.map renderRow := by
  intro ds
  induction ds with
  | nil => rfl
  | cons d ds' ih =>
    rw [List.map_cons, List.filterMap_cons, keepRowLine_renderRow, ih]

/-- `parse_table_rows` applied to a generated document recovers exactly the
rendered rows. -/
theorem parse_rows {pre post : Str} {ds : List RowData} (hpre : '<' ∉ pre)
    (hds : ∀ d ∈ ds, wfRowData d = true) :
    parse_table_rows (pre ++ docSection ds ++ post) = ds.map renderRow := by
  unfold parse_table_rows
  rw [parse_find_start post ds hpre, parse_find_end hpre hds]
  dsimp only
  rw [show pre ++ docSection ds ++ post = (pre ++ MARKER_START) ++
      (('\n' :: (tableHeader ++ (tableBody ds ++ ['\n']))) ++ (MARKER_END ++ post))
      from by simp [docSection, newSectionStr, tableBody, List.append_assoc]]
  rw [pySliceNat,
    show pre.length + MARKER_START.length = (pre ++ MARKER_START).length from
      (List.length_append _ _).symm,
    List.drop_left]
  have hlen : (docBeforeEnd pre ds).length - (pre ++ MARKER_START).length =
      ('\n' :: (tableHeader ++ (tableBody ds ++ ['\n'])) : Str).length := by
    simp [docBeforeEnd, List.length_append]
    omega
  rw [hlen, List.take_left]
  rw [pyStrip_cons_ws (by decide),
    show tableHeader ++ (tableBody ds ++ ['\n']) =
      (tableHeader ++ tableBody ds) ++ ['\n'] from by simp [List.append_assoc],
    pyStrip_concat_ws (by decide)]
  cases ds with
  | nil => decide
  | cons d ds' =>
    have hmid : tableHeader ++ tableBody (d :: ds') =
        headerRow ++ '\n' :: (separatorRow ++ '\n' :: tableBody (d :: ds')) := by
      simp [tableHeader, List.append_assoc]
    rw [hmid]
    rw [pyStrip_eq_self
      (by intro c hc
          rw [show headerRow ++ '\n' :: (separatorRow ++ '\n' :: tableBody (d :: ds')) =
            '|' :: (" Name | Description | Stars |".toList ++
              '\n' :: (separatorRow ++ '\n' :: tableBody (d :: ds'))) from by
            rw [show headerRow = '|' :: (" Name | Description | Stars |".toList)
              from by decide]
            rfl] at hc
          rw [List.head?_cons, Option.some_inj] at hc
          rw [← hc]
          decide)
      (by intro c hc
          rw [List.getLast?_append,
            show ('\n' :: (separatorRow ++ '\n' :: tableBody (d :: ds')) : Str) =
              (('\n' :: separatorRow) ++ '\n' :: tableBody (d :: ds') : Str) from rfl,
            List.getLast?_append,
            show ('\n' :: tableBody (d :: ds') : Str) =
              ['\n'] ++ tableBody (d :: ds') from rfl,
            List.getLast?_append,
            tableBody_getLast (by simp)] at hc
          have h2 : (some '|' : Option Char) = some c := by
            rw [← hc]
            rfl
          rw [← Option.some_inj.mp h2]
          decide)]
    rw [splitOnChar_append_cons (by decide), splitOnChar_append_cons (by decide)]
    rw [show tableBody (d :: ds') = joinChar '\n' ((d :: ds').map renderRow)
      from rfl]
    rw [splitOnChar_joinChar (by simp) (tableBody_no_newline_rows hds)]
    rw [List.filterMap_cons, List.filterMap_cons,
      show keepRowLine headerRow = none from by decide,
      show keepRowLine separatorRow = none from by decide,
      filterMap_keepRowLine]

/-- `parse_existing_entries` applied to a generated document holds exactly
the canonical URLs of the rendered rows. -/
theorem parse_urls {pre post : Str} {ds : List RowData} {u : Str}
    (hpre : '<' ∉ pre) (hds : ∀ d ∈ ds, wfRowData d = true) :
    u ∈ parse_existing_entries (pre ++ docSection ds ++ post) ↔
      ∃ d ∈ ds, canonicalUrl d.url = u := by
  unfold parse_existing_entries
  rw [parse_find_start post ds hpre, parse_find_end hpre hds]
  dsimp only
  rw [show pre ++ docSection ds ++ post = pre ++
      ((MARKER_START ++ ('\n' :: tableHeader)) ++ ((tableBody ds ++ ['\n']) ++
        (MARKER_END ++ post)))
      from by simp [docSection, newSectionStr, tableBody, List.append_assoc]]
  rw [pySliceNat, List.drop_left]
  have hlen : (docBeforeEnd pre ds).length - pre.length =
      ((MARKER_START ++ ('\n' :: tableHeader)) ++ (tableBody ds ++ ['\n'])).length := by
    simp [docBeforeEnd, List.length_append]
  rw [show (MARKER_START ++ ('\n' :: tableHeader)) ++ ((tableBody ds ++ ['\n']) ++
      (MARKER_END ++ post)) =
      ((MARKER_START ++ ('\n' :: tableHeader)) ++ (tableBody ds ++ ['\n'])) ++
        (MARKER_END ++ post) from by simp [List.append_assoc]]
  rw [hlen, List.take_left]
  rw [findAllUrls_append_skip (by decide) (tableBody_take5 hds),
    findAllUrls_rowsBlob hds]
  rw [mem_urlFold]
  constructor
  · rintro (h | ⟨x, hx, hxu⟩)
    · exact absurd h (List.not_mem_nil u)
    · rcases List.mem_map.mp hx with ⟨d, hd, rfl⟩
      exact ⟨d, hd, hxu⟩
  · rintro ⟨d, hd, hdu⟩
    exact Or.inr ⟨d.url, List.mem_map.mpr ⟨d, hd, rfl⟩, hdu⟩

/-! ## Lemmas: well-formedness through one run -/

theorem mem_pyReplaceChar {s : Str} {a b c : Char} (h : c ∈ pyReplaceChar s a b) :
    c = b ∨ (c ∈ s ∧ c ≠ a) := by
  unfold pyReplaceChar at h
  rcases List.mem_map.mp h with ⟨x, hx, hxe⟩
  by_cases hxa : x = a
  · rw [if_pos hxa] at hxe
    exact Or.inl hxe.symm
  · rw [if_neg hxa] at hxe
    exact Or.inr ⟨hxe ▸ hx, hxe ▸ hxa⟩

theorem sanitize_goodDesc {o : Option Str}
    (h : ∀ c ∈ o.getD [], repoDescChar c = true) :
    ∀ c ∈ sanitizeDescription o, goodDescChar c = true := by
  have hbase : ∀ x ∈ pyStrip (pyReplaceChar (o.getD []) '|' '-'),
      goodDescChar x = true := by
    intro x hx
    have hx' := pyStrip_subset _ hx
    rcases mem_pyReplaceChar hx' with rfl | ⟨hxs, hxa⟩
    · decide
    · have hr := h x hxs
      unfold repoDescChar at hr
      unfold goodDescChar
      simp only [Bool.not_eq_true', Bool.or_eq_false_iff,
        decide_eq_false_iff_not] at hr ⊢
      exact ⟨hr, hxa⟩
  intro c hc
  simp only [sanitizeDescription] at hc
  by_cases hlen : 100 < (pyStrip (pyReplaceChar (o.getD []) '|' '-')).length
  · rw [if_pos hlen] at hc
    rcases List.mem_append.mp hc with h' | h'
    · exact hbase c (List.take_subset _ _ h')
    · rcases List.mem_cons.mp h' with rfl | h'
      · decide
      rcases List.mem_cons.mp h' with rfl | h'
      · decide
      rcases List.mem_cons.mp h' with rfl | h'
      · decide
      · exact absurd h' (List.not_mem_nil c)
  · rw [if_neg hlen] at hc
    exact hbase c hc

theorem wfRowData_rowOfRepo {r : Repo} (h : wfRepoB r = true) :
    wfRowData (rowOfRepo r) = true := by
  unfold wfRepoB at h
  rw [Bool.and_eq_true, Bool.and_eq_true] at h
  unfold wfRowData rowOfRepo
  dsimp only
  rw [Bool.and_eq_true, Bool.and_eq_true]
  exact ⟨⟨h.1.1, h.1.2⟩,
    List.all_eq_true.mpr (sanitize_goodDesc (List.all_eq_true.mp h.2))⟩

theorem wfRowData_refreshStars (m : List (Str × Repo)) (d : RowData) :
    wfRowData (refreshStars m d) = wfRowData d := by
  unfold refreshStars
  cases pyGet m (canonicalUrl d.url) <;> rfl

theorem refreshStars_url (m : List (Str × Repo)) (d : RowData) :
    (refreshStars m d).url = d.url := by
  unfold refreshStars
  cases pyGet m (canonicalUrl d.url) <;> rfl

theorem refreshStars_idem (m : List (Str × Repo)) (d : RowData) :
    refreshStars m (refreshStars m d) = refreshStars m d := by
  cases hg : pyGet m (canonicalUrl d.url) with
  | none =>
    have h1 : refreshStars m d = d := by
      unfold refreshStars
      rw [hg]
    rw [h1]
    exact h1
  | some r =>
    have h1 : refreshStars m d = { d with stars := r.stargazers_count } := by
      unfold refreshStars
      rw [hg]
    rw [h1]
    unfold refreshStars
    dsimp only
    rw [hg]

theorem refreshStars_rowOfRepo {m : List (Str × Repo)} {r : Repo}
    (h : pyGet m (canonicalUrl r.html_url) = some r) :
    refreshStars m (rowOfRepo r) = rowOfRepo r := by
  unfold refreshStars
  rw [show (rowOfRepo r).url = r.html_url from rfl, h]
  rfl

theorem update_row_stars_refresh {d : RowData} (hd : wfRowData d = true)
    (m : List (Str × Repo)) :
    update_row_stars (renderRow d) m = renderRow (refreshStars m d) := by
  rw [update_row_stars_renderRow hd]
  unfold refreshStars
  cases pyGet m (canonicalUrl d.url) <;> rfl

/-! ## Lemmas: the sort seen at the row-data level -/

theorem orderedInsert_renderRow {d : RowData} (hd : wfRowData d = true) :
    ∀ {es : List RowData}, (∀ e ∈ es, wfRowData e = true) →
    List.orderedInsert rowStarsDesc (renderRow d) (es.map renderRow) =
      (List.orderedInsert starsDescRow d es).map renderRow := by
  intro es
  induction es with
  | nil => intro _; rfl
  | cons e es' ih =>
    intro hes
    rw [List.map_cons, List.orderedInsert, List.orderedInsert]
    have hcomp : rowStarsDesc (renderRow d) (renderRow e) ↔ starsDescRow d e := by
      unfold rowStarsDesc starsDescRow
      rw [extract_stars_renderRow hd,
        extract_stars_renderRow (hes e (List.mem_cons_self _ _))]
      exact Nat.cast_le
    by_cases h : starsDescRow d e
    · rw [if_pos h, if_pos (hcomp.mpr h), List.map_cons, List.map_cons]
    · rw [if_neg h, if_neg (fun hh => h (hcomp.mp hh)), List.map_cons,
        ih (fun x hx => hes x (List.mem_cons_of_mem _ hx))]

theorem insertionSort_renderRow : ∀ {es : List RowData},
    (∀ e ∈ es, wfRowData e = true) →
    List.insertionSort rowStarsDesc (es.map renderRow) =
      (List.insertionSort starsDescRow es).map renderRow := by
  intro es
  induction es with
  | nil => intro _; rfl
  | cons e es' ih =>
    intro hes
    rw [List.map_cons, List.insertionSort, List.insertionSort,
      ih (fun x hx => hes x (List.mem_cons_of_mem _ hx)),
      orderedInsert_renderRow (hes e (List.mem_cons_self _ _))
        (fun x hx => hes x (List.mem_cons_of_mem _
          ((List.mem_insertionSort starsDescRow).mp hx)))]

/-! ## Lemmas: the by-URL mapping -/

theorem partitionStep_snd (urls : List Str)
    (acc : List Repo × List (Str × Repo)) (p : Str × Repo) :
    (partitionStep urls acc p).2 =
      dictSet acc.2 (canonicalUrl p.2.html_url) p.2 := by
  unfold partitionStep
  by_cases h : excludedRepo urls p.2 <;> simp [h]

theorem partition_snd_indep (urls urls' : List Str) :
    ∀ (items : List (Str × Repo)) (acc acc' : List Repo × List (Str × Repo)),
      acc.2 = acc'.2 →
      (items.foldl (partitionStep urls) acc).2 =
        (items.foldl (partitionStep urls') acc').2 := by
  intro items
  induction items with
  | nil => intro acc acc' h; exact h
  | cons p items' ih =>
    intro acc acc' h
    rw [List.foldl_cons, List.foldl_cons]
    apply ih
    rw [partitionStep_snd, partitionStep_snd, h]

theorem insertRepos_mem {p : Str × Repo} :
    ∀ (repos : List Repo) (acc : List (Str × Repo)),
      p ∈ insertRepos acc repos → p ∈ acc ∨ p.2 ∈ repos := by
  intro repos
  induction repos with
  | nil => intro acc h; exact Or.inl h
  | cons r rs ih =>
    intro acc h
    rw [show insertRepos acc (r :: rs) = insertRepos
        (if hasKey acc (pyLower r.full_name) then acc
         else acc ++ [(pyLower r.full_name, r)]) rs from rfl] at h
    rcases ih _ h with h' | h'
    · by_cases hk : hasKey acc (pyLower r.full_name)
      · rw [if_pos hk] at h'
        exact Or.inl h'
      · rw [if_neg hk] at h'
        rcases List.mem_append.mp h' with h'' | h''
        · exact Or.inl h''
        · rcases List.mem_singleton.mp h'' with rfl
          exact Or.inr (List.mem_cons_self _ _)
    · exact Or.inr (List.mem_cons_of_mem _ h')

theorem runQueries_vals_aux {fetch : Str → HttpResponse} :
    ∀ (qs : List Str) (acc all : List (Str × Repo)),
      runQueries fetch qs acc = .ok all → ∀ p ∈ all,
        p ∈ acc ∨ p.2 ∈ (qs.map fun q => (fetch q).items).flatten := by
  intro qs
  induction qs with
  | nil =>
    intro acc all h p hp
    cases h
    exact Or.inl hp
  | cons q qs' ih =>
    intro acc all h p hp
    rw [show runQueries fetch (q :: qs') acc =
      (match search_repos (fetch q) with
       | .error e => .error e
       | .ok repos => runQueries fetch qs' (insertRepos acc repos)) from rfl] at h
    cases hs : search_repos (fetch q) with
    | error e =>
      rw [hs] at h
      cases h
    | ok repos =>
      rw [hs] at h
      rw [List.map_cons, List.flatten_cons]
      rcases ih _ _ h p hp with h' | h'
      · rcases insertRepos_mem repos acc h' with h'' | h''
        · exact Or.inl h''
        · refine Or.inr (List.mem_append.mpr (Or.inl ?_))
          unfold search_repos at hs
          by_cases h403 : (fetch q).status = 403
          · rw [if_pos h403] at hs
            cases hs
            exact absurd h'' (List.not_mem_nil _)
          · rw [if_neg h403] at hs
            by_cases herr : 400 ≤ (fetch q).status ∧ (fetch q).status < 600
            · rw [if_pos herr] at hs
              cases hs
            · rw [if_neg herr] at hs
              cases hs
              exact h''
      · exact Or.inr (List.mem_append.mpr (Or.inr h'))

theorem runQueries_vals {fetch : Str → HttpResponse} {all : List (Str × Repo)}
    (h : runQueries fetch SEARCH_QUERIES [] = .ok all) :
    ∀ p ∈ all, p.2 ∈ fetchedRepos fetch := by
  intro p hp
  rcases runQueries_vals_aux SEARCH_QUERIES [] all h p hp with h' | h'
  · exact absurd h' (List.not_mem_nil p)
  · exact h'

theorem byUrl_lookup_self {all_repos : List (Str × Repo)} (urls : List Str)
    {p : Str × Repo} (hp : p ∈ all_repos)
    (hinj : ∀ a ∈ all_repos, ∀ b ∈ all_repos,
      canonicalUrl a.2.html_url = canonicalUrl b.2.html_url → a.2 = b.2) :
    pyGet (partitionRepos all_repos urls).2 (canonicalUrl p.2.html_url) =
      some p.2 := by
  have hsome := partition_byUrl_isSome urls all_repos ([], []) p hp
  cases hg : pyGet (partitionRepos all_repos urls).2 (canonicalUrl p.2.html_url) with
  | none =>
    unfold partitionRepos at hg
    rw [hg] at hsome
    simp at hsome
  | some r =>
    have hg' : pyGet (all_repos.foldl (partitionStep urls) ([], [])).2
        (canonicalUrl p.2.html_url) = some r := by
      unfold partitionRepos at hg
      exact hg
    rcases partition_byUrl_get urls all_repos ([], []) _ r hg' with h | ⟨q, hq, rfl, hcan⟩
    · simp [pyGet] at h
    · rw [hinj q hq p hp hcan]

/-! ## The shape of one whole run on a generated document -/

theorem runRows_arg_wf {ds : List RowData} {all_repos : List (Str × Repo)}
    (urls : List Str)
    (hds : ∀ d ∈ ds, wfRowData d = true)
    (hvals : ∀ p ∈ all_repos, wfRepoB p.2 = true) :
    ∀ e ∈ ds.map (refreshStars (partitionRepos all_repos urls).2) ++
        (List.insertionSort starsDescRepo
          (partitionRepos all_repos urls).1).map rowOfRepo,
      wfRowData e = true := by
  intro e he
  rcases List.mem_append.mp he with h | h
  · rcases List.mem_map.mp h with ⟨d, hd, rfl⟩
    rw [wfRowData_refreshStars]
    exact hds d hd
  · rcases List.mem_map.mp h with ⟨r, hr, rfl⟩
    have hr' := (List.mem_insertionSort starsDescRepo).mp hr
    unfold partitionRepos at hr'
    rcases (partition_fst_mem urls all_repos ([], []) r).mp hr' with h' | ⟨q, hq, rfl, -⟩
    · exact absurd h' (List.not_mem_nil r)
    · exact wfRowData_rowOfRepo (hvals q hq)

theorem runRows_wf {ds : List RowData} {all_repos : List (Str × Repo)}
    (urls : List Str)
    (hds : ∀ d ∈ ds, wfRowData d = true)
    (hvals : ∀ p ∈ all_repos, wfRepoB p.2 = true) :
    ∀ e ∈ runRows ds all_repos urls, wfRowData e = true := by
  intro e he
  unfold runRows at he
  exact runRows_arg_wf urls hds hvals e
    ((List.mem_insertionSort starsDescRow).mp he)

theorem run_allRows {ds : List RowData} {all_repos : List (Str × Repo)}
    (urls : List Str)
    (hds : ∀ d ∈ ds, wfRowData d = true)
    (hvals : ∀ p ∈ all_repos, wfRepoB p.2 = true) :
    List.insertionSort rowStarsDesc
      ((ds.map renderRow).map
          (fun row => update_row_stars row (partitionRepos all_repos urls).2) ++
        (List.insertionSort starsDescRepo
          (partitionRepos all_repos urls).1).map build_table_row) =
      (runRows ds all_repos urls).map renderRow := by
  have hA : (ds.map renderRow).map
      (fun row => update_row_stars row (partitionRepos all_repos urls).2) =
      (ds.map (refreshStars (partitionRepos all_repos urls).2)).map renderRow := by
    rw [List.map_map, List.map_map]
    exact List.map_congr_left fun d hd => update_row_stars_refresh (hds d hd) _
  have hB : (List.insertionSort starsDescRepo
        (partitionRepos all_repos urls).1).map build_table_row =
      ((List.insertionSort starsDescRepo
        (partitionRepos all_repos urls).1).map rowOfRepo).map renderRow := by
    conv_rhs => rw [List.map_map]
    rfl
  rw [hA, hB, ← List.map_append,
    insertionSort_renderRow (runRows_arg_wf urls hds hvals)]
  rfl

/-- One run on a document of the generated shape: the bounded section is
replaced by the rendered `runRows`, the surroundings survive, and the new
repositories are the sorted survivors of the filter. -/
theorem mainFromRepos_on_doc (pre post : Str) (ds : List RowData)
    (all_repos : List (Str × Repo))
    (hpre : '<' ∉ pre) (hds : ∀ d ∈ ds, wfRowData d = true)
    (hvals : ∀ p ∈ all_repos, wfRepoB p.2 = true) :
    mainFromRepos (pre ++ docSection ds ++ post) all_repos =
      ⟨pre ++ docSection (runRows ds all_repos
          (parse_existing_entries (pre ++ docSection ds ++ post))) ++ post,
        List.insertionSort starsDescRepo
          (partitionRepos all_repos
            (parse_existing_entries (pre ++ docSection ds ++ post))).1,
        (runRows ds all_repos
          (parse_existing_entries (pre ++ docSection ds ++ post))).map renderRow⟩ := by
  simp only [mainFromRepos]
  rw [parse_rows hpre hds,
    run_allRows (parse_existing_entries (pre ++ docSection ds ++ post)) hds hvals]
  rw [pyFind_of_opt_some (parse_find_start post ds hpre),
    pyFind_of_opt_some (parse_find_end hpre hds)]
  rw [pySliceTo_nat]
  rw [show (pre ++ docSection ds ++ post).take pre.length = pre from by
    rw [List.append_assoc]
    exact List.take_left _ _]
  rw [show (((docBeforeEnd pre ds).length : Int) + (MARKER_END.length : Int)) =
      (((docBeforeEnd pre ds ++ MARKER_END).length : Nat) : Int) from by
    rw [List.length_append]
    push_cast
    ring]
  rw [pySliceFrom_nat]
  rw [show (pre ++ docSection ds ++ post).drop
      (docBeforeEnd pre ds ++ MARKER_END).length = post from by
    rw [docSection_decomp]
    exact List.drop_left _ _]
  rfl

/-! ## Claim C8 -/

/-- C8 (amended): the original claim — running the pipeline twice with the
search API returning identical data and no errors reproduces the first
run's document — fails on documents whose rows are not of the generated
shape; `idempotence_cex` shows a row carrying its URL in the star column
being destroyed by the first refresh so that the second run re-adds the
repository and changes the document again. The amended claim proved here:
on a document whose bounded section consists of well-formed generated rows
(and whose prefix contains no `<`), with every fetched repository record
well formed and fetched records distinct-by-canonical-URL, the second run
returns the first run's document unchanged and adds zero new repositories. -/
theorem pipeline_idempotent {pre post : Str} {ds : List RowData}
    {fetch : Str → HttpResponse}
    (hpre : '<' ∉ pre) (hds : ∀ d ∈ ds, wfRowData d = true)
    (hfetch : fetchOk fetch)
    (hwf : ∀ r ∈ fetchedRepos fetch, wfRepoB r = true)
    (hinj : ∀ r ∈ fetchedRepos fetch, ∀ s ∈ fetchedRepos fetch,
      canonicalUrl r.html_url = canonicalUrl s.html_url → r = s) :
    ∃ res1 res2,
      mainModel (pre ++ docSection ds ++ post) fetch = .ok res1 ∧
      mainModel res1.newReadme fetch = .ok res2 ∧
      res2.newReadme = res1.newReadme ∧ res2.newRepos = [] := by
  rcases runQueries_isOk fetch hfetch SEARCH_QUERIES (fun _ h => h) []
    with ⟨all_repos, hq⟩
  have hvals := runQueries_vals hq
  have hwfvals : ∀ p ∈ all_repos, wfRepoB p.2 = true :=
    fun p hp => hwf _ (hvals p hp)
  have hinj' : ∀ a ∈ all_repos, ∀ b ∈ all_repos,
      canonicalUrl a.2.html_url = canonicalUrl b.2.html_url → a.2 = b.2 :=
    fun a ha b hb => hinj _ (hvals a ha) _ (hvals b hb)
  have hres1 := mainFromRepos_on_doc pre post ds all_repos hpre hds hwfvals
  set urls1 := parse_existing_entries (pre ++ docSection ds ++ post) with hurls1
  set ds1 := runRows ds all_repos urls1 with hds1def
  have hds1 : ∀ d ∈ ds1, wfRowData d = true := by
    rw [hds1def]
    exact runRows_wf urls1 hds hwfvals
  have hres2 := mainFromRepos_on_doc pre post ds1 all_repos hpre hds1 hwfvals
  set urls2 := parse_existing_entries (pre ++ docSection ds1 ++ post) with hurls2
  have hmemref : ∀ d ∈ ds,
      refreshStars (partitionRepos all_repos urls1).2 d ∈ ds1 := by
    intro d hd
    rw [hds1def]
    unfold runRows
    exact (List.mem_insertionSort starsDescRow).mpr
      (List.mem_append.mpr (Or.inl (List.mem_map_of_mem _ hd)))
  have hmemnew : ∀ r ∈ (partitionRepos all_repos urls1).1, rowOfRepo r ∈ ds1 := by
    intro r hr
    rw [hds1def]
    unfold runRows
    exact (List.mem_insertionSort starsDescRow).mpr
      (List.mem_append.mpr (Or.inr (List.mem_map_of_mem _
        ((List.mem_insertionSort starsDescRepo).mpr hr))))
  have hall : ∀ p ∈ all_repos, excludedRepo urls2 p.2 = true := by
    intro p hp
    simp only [excludedRepo, Bool.or_eq_true, decide_eq_true_eq]
    by_cases hex : excludedRepo urls1 p.2 = true
    · simp only [excludedRepo, Bool.or_eq_true, decide_eq_true_eq] at hex
      rcases hex with (hf | ha) | hm
      · exact Or.inl (Or.inl hf)
      · exact Or.inl (Or.inr ha)
      · rw [hurls1] at hm
        rcases (parse_urls hpre hds).mp hm with ⟨d, hd, hdu⟩
        refine Or.inr ?_
        rw [hurls2]
        exact (parse_urls hpre hds1).mpr
          ⟨refreshStars (partitionRepos all_repos urls1).2 d, hmemref d hd,
            by rw [refreshStars_url]; exact hdu⟩
    · have hexf : excludedRepo urls1 p.2 = false := by
        cases hval : excludedRepo urls1 p.2
        · rfl
        · exact absurd hval hex
      have hpfst : p.2 ∈ (partitionRepos all_repos urls1).1 := by
        unfold partitionRepos
        exact (partition_fst_mem urls1 all_repos ([], []) p.2).mpr
          (Or.inr ⟨p, hp, rfl, hexf⟩)
      refine Or.inr ?_
      rw [hurls2]
      exact (parse_urls hpre hds1).mpr ⟨rowOfRepo p.2, hmemnew _ hpfst, rfl⟩
  have hnil : (partitionRepos all_repos urls2).1 = [] := by
    rw [List.eq_nil_iff_forall_not_mem]
    intro r hr
    unfold partitionRepos at hr
    rcases (partition_fst_mem urls2 all_repos ([], []) r).mp hr
      with h | ⟨q, hq, rfl, hexf⟩
    · exact absurd h (List.not_mem_nil r)
    · rw [hall q hq] at hexf
      simp at hexf
  have hm2 : (partitionRepos all_repos urls2).2 =
      (partitionRepos all_repos urls1).2 := by
    unfold partitionRepos
    exact partition_snd_indep urls2 urls1 all_repos ([], []) ([], []) rfl
  have hfix : ∀ d ∈ ds1, refreshStars (partitionRepos all_repos urls2).2 d = d := by
    intro d hd
    rw [hm2]
    rw [hds1def] at hd
    unfold runRows at hd
    rcases List.mem_append.mp ((List.mem_insertionSort starsDescRow).mp hd)
      with h | h
    · rcases List.mem_map.mp h with ⟨d0, hd0, rfl⟩
      exact refreshStars_idem _ d0
    · rcases List.mem_map.mp h with ⟨r, hr, rfl⟩
      have hr' := (List.mem_insertionSort starsDescRepo).mp hr
      unfold partitionRepos at hr'
      rcases (partition_fst_mem urls1 all_repos ([], []) r).mp hr'
        with h' | ⟨q, hq, rfl, -⟩
      · exact absurd h' (List.not_mem_nil r)
      · exact refreshStars_rowOfRepo (byUrl_lookup_self urls1 hq hinj')
  have hrr2 : runRows ds1 all_repos urls2 = ds1 := by
    unfold runRows
    rw [hnil]
    rw [show List.insertionSort starsDescRepo ([] : List Repo) = [] from rfl]
    rw [List.map_nil, List.append_nil]
    rw [List.map_congr_left hfix, List.map_id']
    apply List.Sorted.insertionSort_eq
    rw [hds1def]
    unfold runRows
    exact List.sorted_insertionSort starsDescRow _
  refine ⟨mainFromRepos (pre ++ docSection ds ++ post) all_repos,
          mainFromRepos (pre ++ docSection ds1 ++ post) all_repos,
          ?_, ?_, ?_, ?_⟩
  · unfold mainModel
    rw [hq]
  · unfold mainModel
    rw [hq, hres1]
  · rw [hres1, hres2, hrr2]
  · rw [hres2]
    dsimp only
    rw [hnil]
    rfl

set_option maxRecDepth 1000000 in
/-- Counterexample to C8 as stated: `c8readme` lists `a/foo` only through a
URL sitting in the star column. The first run adds nothing but the star
refresh overwrites that column — and with it the URL — with the fetched
star count, so the second run no longer sees `a/foo` as existing, re-adds
it, and produces a different document. -/
theorem idempotence_cex :
    fetchOk c8fetch ∧
    mainNewRepos c8readme c8fetch = [] ∧
    mainNewRepos (finalReadme c8readme c8fetch) c8fetch = [c8repo] ∧
    finalReadme (finalReadme c8readme c8fetch) c8fetch ≠
      finalReadme c8readme c8fetch := by
  decide

set_option maxRecDepth 1000000 in
theorem pipeline_idempotent_witness :
    ∃ res1 res2,
      mainModel (c8wpre ++ docSection [c8wrow] ++ c8wpost) c8wfetch = .ok res1 ∧
      mainModel res1.newReadme c8wfetch = .ok res2 ∧
      res2.newReadme = res1.newReadme ∧ res2.newRepos = [] :=
  pipeline_idempotent (by decide) (by decide) (by decide) (by decide) (by decide)

end NanoDiscovery
